import Mathlib

/-!
Verification of the catatsuy/cache repository.

The development shallowly embeds the Go sources:

* `cache.go`: the expiring caches (WriteHeavyCacheExpired, ReadHeavyCacheExpired)
  and the integer caches (WriteHeavyCacheInteger, ReadHeavyCacheInteger).
  These are sequential wrappers over a map and a lock; locks are not observable
  in a sequential embedding, so methods are embedded as pure state transformers
  that mirror the method bodies statement by statement.  The Go time.Time values
  are embedded as Nat, with time.Now() passed as an explicit parameter, and
  t.After(u) embedded as u < t (strict).  Go fixed-width machine integers are
  embedded as Nat with an explicit wrap modulo 2 ^ w at each machine addition.

* `singleflight.go` (the generic, minimal variant, called the M variant below)
  and the shared-flag variant of SingleflightGroup (the S variant): embedded as
  a small-step interleaving semantics.  A configuration holds the group map,
  a heap of call records, a pool of caller threads (each one executing Do on
  its key with its producer), the pending asynchronous deletion goroutines and
  a producer-invocation counter (the same counter the repository tests keep
  with atomic.AddInt32).  A scheduler action picks which thread (or which
  pending deletion goroutine) performs its next atomic step; the step function
  is deterministic given the action, and nondeterminism is the choice of the
  action list.  Critical sections of the group mutex sf.mu are modelled as
  single atomic steps (no other thread can observe the map while sf.mu is
  held, so this is observationally faithful); the call mutex c.mu is modelled
  explicitly by its holder, since callers block on it across producer runs.
  Producers are pure in the model: each thread carries the (value, error) pair
  its producer returns; producer side effects are reflected by the invocation
  counter and a per-thread didExec flag recording that this caller ran fn.
-/

/-- Pointwise update of a function out of Nat, used for the call heap and the
thread pool of the singleflight configurations. -/
def updf {α : Type} (f : Nat → α) (i : Nat) (x : α) : Nat → α :=
  fun j => if j = i then x else f j

theorem updf_same {α : Type} (f : Nat → α) (i : Nat) (x : α) : updf f i x i = x := by
  simp [updf]

theorem updf_ne {α : Type} (f : Nat → α) (i j : Nat) (x : α) (h : j ≠ i) :
    updf f i x j = f j := by
  simp [updf, h]

/-! ## The expiring caches (cache.go, lines 80-154)

expiredValue stores a value with its expiration time; the caches hold a map
from keys to expiredValue.  Get performs no write to the map in the source, so
its embedding returns the cache unchanged as its second component. -/

/-- Source type expiredValue: a cached value with an expiration time
(time.Time embedded as Nat). -/
structure expiredValue (V : Type) where
  value : V
  expire : Nat
deriving DecidableEq

/-- Source type WriteHeavyCacheExpired: mutex-guarded map from keys to
expiring values (the mutex is not observable sequentially). -/
structure WriteHeavyCacheExpired (K V : Type) where
  items : K → Option (expiredValue V)

/-- Source type ReadHeavyCacheExpired: RWMutex-guarded map from keys to
expiring values (the lock is not observable sequentially). -/
structure ReadHeavyCacheExpired (K V : Type) where
  items : K → Option (expiredValue V)

/-- Set for WriteHeavyCacheExpired: stores the value with expire equal to
time.Now().Add(duration), embedded as now + duration. -/
def WriteHeavyCacheExpired.Set [DecidableEq K] (c : WriteHeavyCacheExpired K V)
    (now : Nat) (key : K) (value : V) (duration : Nat) : WriteHeavyCacheExpired K V :=
  { items := fun k => if k = key then some ⟨value, now + duration⟩ else c.items k }

/-- Get for WriteHeavyCacheExpired (cache.go lines 122-131): on a miss, or when
time.Now().After(v.expire) (strictly after, embedded as v.expire < now), return
the zero value and false; otherwise return the stored value and true.  The
second component is the cache after the read: the body performs no write, so it
is returned unchanged. -/
def WriteHeavyCacheExpired.Get [Inhabited V] (c : WriteHeavyCacheExpired K V)
    (now : Nat) (key : K) : (V × Bool) × WriteHeavyCacheExpired K V :=
  match c.items key with
  | none => ((default, false), c)
  | some v => if v.expire < now then ((default, false), c) else ((v.value, true), c)

/-- Set for ReadHeavyCacheExpired, same body as the write-heavy variant. -/
def ReadHeavyCacheExpired.Set [DecidableEq K] (c : ReadHeavyCacheExpired K V)
    (now : Nat) (key : K) (value : V) (duration : Nat) : ReadHeavyCacheExpired K V :=
  { items := fun k => if k = key then some ⟨value, now + duration⟩ else c.items k }

/-- Get for ReadHeavyCacheExpired (cache.go lines 145-154), same body as the
write-heavy variant up to the (sequentially unobservable) lock kind. -/
def ReadHeavyCacheExpired.Get [Inhabited V] (c : ReadHeavyCacheExpired K V)
    (now : Nat) (key : K) : (V × Bool) × ReadHeavyCacheExpired K V :=
  match c.items key with
  | none => ((default, false), c)
  | some v => if v.expire < now then ((default, false), c) else ((v.value, true), c)

/-! ## The integer caches (cache.go, lines 156-258)

Values are Go fixed-width integers; they are embedded as Nat representing the
w-bit machine word, and the machine addition v + value is embedded as
(v + value) % 2 ^ w. -/

/-- Source type WriteHeavyCacheInteger: mutex-guarded map from keys to
fixed-width integers (embedded as Nat). -/
structure WriteHeavyCacheInteger (K : Type) where
  items : K → Option Nat

/-- Source type ReadHeavyCacheInteger: RWMutex-guarded map from keys to
fixed-width integers (embedded as Nat). -/
structure ReadHeavyCacheInteger (K : Type) where
  items : K → Option Nat

/-- Get for WriteHeavyCacheInteger (cache.go lines 200-205): map read; on a
miss Go yields the zero value of the integer type, namely 0, and false. -/
def WriteHeavyCacheInteger.Get [DecidableEq K] (c : WriteHeavyCacheInteger K)
    (key : K) : Nat × Bool :=
  match c.items key with
  | some v => (v, true)
  | none => (0, false)

/-- Incr for WriteHeavyCacheInteger (cache.go lines 208-217): when the key is
present store the machine sum of the old value and the increment (wrapping at
width w), otherwise store the increment itself. -/
def WriteHeavyCacheInteger.Incr [DecidableEq K] (w : Nat) (c : WriteHeavyCacheInteger K)
    (key : K) (value : Nat) : WriteHeavyCacheInteger K :=
  match c.items key with
  | some v => { items := fun k => if k = key then some ((v + value) % 2 ^ w) else c.items k }
  | none => { items := fun k => if k = key then some value else c.items k }

/-- Get for ReadHeavyCacheInteger (cache.go lines 234-239), same body as the
write-heavy variant. -/
def ReadHeavyCacheInteger.Get [DecidableEq K] (c : ReadHeavyCacheInteger K)
    (key : K) : Nat × Bool :=
  match c.items key with
  | some v => (v, true)
  | none => (0, false)

/-- Incr for ReadHeavyCacheInteger (cache.go lines 242-251), same body as the
write-heavy variant. -/
def ReadHeavyCacheInteger.Incr [DecidableEq K] (w : Nat) (c : ReadHeavyCacheInteger K)
    (key : K) (value : Nat) : ReadHeavyCacheInteger K :=
  match c.items key with
  | some v => { items := fun k => if k = key then some ((v + value) % 2 ^ w) else c.items k }
  | none => { items := fun k => if k = key then some value else c.items k }

/-! ## The singleflight group, minimal variant (singleflight.go) — the M model

State of one call record (source type call, singleflight.go lines 28-33).
The mutex c.mu is represented by its holder (none when free); value, err and
done are the record fields, with the Go error embedded as Option E (nil = none)
and the zero value of V taken from Inhabited. -/

/-- Source type call (singleflight.go lines 28-33): per-key record with its
own mutex (represented by its holding thread), the produced value, the
produced error and the completion flag. -/
structure Call (V E : Type) where
  mu : Option Nat
  value : V
  err : Option E
  done : Bool
deriving DecidableEq

/-- A freshly allocated call record, Go expression &call[V]{}: zero value of
every field (free mutex, zero value, nil error, done = false). -/
def newCall (V E : Type) [Inhabited V] : Call V E :=
  ⟨none, default, none, false⟩

/-- Program counter of a caller thread inside Do of the minimal variant,
naming the next atomic step the thread will take:
entry    = the whole sf.mu critical section, lines 54-64 (lookup, create on
           miss, insert, release);
lockCall = acquire c.mu and test c.done, lines 67-68 (one atomic step: no
           other thread can observe state between the acquisition and the
           test);
exec     = the producer invocation and result store, lines 70-71 (runs while
           holding c.mu);
unlock   = release c.mu and spawn the deletion goroutine, lines 73-80;
ret      = read c.value, c.err and return, line 82;
halted   = Do has returned. -/
inductive PCm
  | entry
  | lockCall
  | exec
  | unlock
  | ret
  | halted
deriving DecidableEq

/-- One caller thread of the M model: the key and the (value, error) pair its
producer returns, its program counter, the call record it obtained from the
map (cref, meaningful once pc is past entry), whether this caller itself ran
the producer (didExec), and the pair Do returned (res, set at the ret step). -/
structure ThreadM (K V E : Type) where
  key : K
  fnv : V
  fne : Option E
  pc : PCm
  cref : Nat
  didExec : Bool
  res : Option (V × Option E)
deriving DecidableEq

/-- A configuration of the M model: the group map m (source field
SingleflightGroup.m, key to index of a call record), the heap of allocated
call records (calls, indices below ncalls), the caller threads (indices below
nthreads), the keys whose deletion goroutines have been spawned but have not
yet run (pending), and the number of completed producer invocations (counter,
the atomic call counter kept by the repository tests). -/
structure CfgM (K V E : Type) where
  m : K → Option Nat
  ncalls : Nat
  calls : Nat → Call V E
  nthreads : Nat
  threads : Nat → ThreadM K V E
  pending : List K
  counter : Nat

/-- A scheduler action: run the next atomic step of thread t, or run the
deletion goroutine at position i of the pending list. -/
inductive Act
  | thr (t : Nat)
  | del (i : Nat)
deriving DecidableEq

/-- Transition for singleflight.go lines 54-64 on a map hit: under sf.mu the
key is found, so thread t remembers the existing call record ci and proceeds
to acquire its lock. -/
def mAttach (c : CfgM K V E) (t ci : Nat) : CfgM K V E :=
  { c with
    threads := updf c.threads t { c.threads t with pc := PCm.lockCall, cref := ci } }

/-- Transition for singleflight.go lines 54-64 on a map miss: under sf.mu a
fresh call record &call[V]{} is allocated at index ncalls, inserted into the
map under the key of thread t, and remembered by the thread. -/
def mCreate [DecidableEq K] [Inhabited V] (c : CfgM K V E) (t : Nat) : CfgM K V E :=
  { c with
    m := fun k => if k = (c.threads t).key then some c.ncalls else c.m k,
    ncalls := c.ncalls + 1,
    calls := updf c.calls c.ncalls (newCall V E),
    threads := updf c.threads t
      { c.threads t with pc := PCm.lockCall, cref := c.ncalls } }

/-- Transition for singleflight.go lines 67-68: thread t acquires the free
mutex of its call record and tests done, proceeding to the producer run when
done is false and straight to the release when done is true. -/
def mLock (c : CfgM K V E) (t : Nat) : CfgM K V E :=
  { c with
    calls := updf c.calls (c.threads t).cref
      { c.calls (c.threads t).cref with mu := some t },
    threads := updf c.threads t
      { c.threads t with
        pc := if (c.calls (c.threads t).cref).done then PCm.unlock else PCm.exec } }

/-- Transition for singleflight.go lines 70-71: thread t, holding the call
mutex with done false, runs its producer, stores the returned value and error
into the call record and sets done; the invocation counter increases and the
thread records that it was the executor. -/
def mExec (c : CfgM K V E) (t : Nat) : CfgM K V E :=
  { c with
    calls := updf c.calls (c.threads t).cref
      { c.calls (c.threads t).cref with
        value := (c.threads t).fnv, err := (c.threads t).fne, done := true },
    threads := updf c.threads t { c.threads t with pc := PCm.unlock, didExec := true },
    counter := c.counter + 1 }

/-- Transition for singleflight.go lines 73-80: thread t releases the call
mutex and spawns the deletion goroutine for its key (every Do invocation of
the minimal variant spawns one, executor or not). -/
def mUnlock (c : CfgM K V E) (t : Nat) : CfgM K V E :=
  { c with
    calls := updf c.calls (c.threads t).cref
      { c.calls (c.threads t).cref with mu := none },
    pending := c.pending ++ [(c.threads t).key],
    threads := updf c.threads t { c.threads t with pc := PCm.ret } }

/-- Transition for singleflight.go line 82: thread t reads c.value and c.err
of its call record and returns them from Do. -/
def mRet (c : CfgM K V E) (t : Nat) : CfgM K V E :=
  { c with
    threads := updf c.threads t
      { c.threads t with
        pc := PCm.halted,
        res := some ((c.calls (c.threads t).cref).value,
                     (c.calls (c.threads t).cref).err) } }

/-- Transition for singleflight.go lines 77-79: the deletion goroutine at
position i of the pending list acquires sf.mu, deletes its key k from the map
and releases sf.mu (one atomic critical section). -/
def mDel [DecidableEq K] (c : CfgM K V E) (i : Nat) (k : K) : CfgM K V E :=
  { c with
    pending := c.pending.eraseIdx i,
    m := fun k2 => if k2 = k then none else c.m k2 }

/-- One atomic step of the M model (singleflight.go Do, lines 52-83, plus the
body of the spawned deletion goroutine, lines 76-80).  Returns none when the
action is not runnable (nonexistent thread, blocked on c.mu, already returned,
nonexistent pending goroutine): a schedule may only take runnable actions. -/
def stepM [DecidableEq K] [Inhabited V] (c : CfgM K V E) : Act → Option (CfgM K V E)
  | Act.thr t =>
    if t < c.nthreads then
      match (c.threads t).pc with
      | PCm.entry =>
        match c.m (c.threads t).key with
        | some ci => some (mAttach c t ci)
        | none => some (mCreate c t)
      | PCm.lockCall =>
        if (c.calls (c.threads t).cref).mu = none then some (mLock c t) else none
      | PCm.exec => some (mExec c t)
      | PCm.unlock => some (mUnlock c t)
      | PCm.ret => some (mRet c t)
      | PCm.halted => none
    else none
  | Act.del i =>
    match c.pending.get? i with
    | some k => some (mDel c i k)
    | none => none

/-- Run a schedule: take the steps of the action list in order; none when some
action is not runnable. -/
def runM [DecidableEq K] [Inhabited V] (c : CfgM K V E) : List Act → Option (CfgM K V E)
  | [] => some c
  | a :: acts =>
    match stepM c a with
    | some c1 => runM c1 acts
    | none => none

/-- The configuration produced by NewSingleflightGroup (singleflight.go lines
37-41: an empty map and no call records) together with n caller threads that
have all entered Do on the same key k, the thread at index t carrying the pair
(fns t) that its producer returns.  No producer has run yet, so a schedule
from this configuration only lets a producer finish after every caller has
entered Do. -/
def initCfgM (K V E : Type) [Inhabited V] (n : Nat) (k : K) (fns : Nat → V × Option E) : CfgM K V E :=
  { m := fun _ => none,
    ncalls := 0,
    calls := fun _ => ⟨none, default, none, false⟩,
    nthreads := n,
    threads := fun t => ⟨k, (fns t).1, (fns t).2, PCm.entry, 0, false, none⟩,
    pending := [],
    counter := 0 }

/-! ## Concrete schedules refuting parts of the specification

The following runs are complete interleavings of the M model, evaluated by the
kernel.  Both callers are inside Do from the very first configuration, so the
scenario hypothesis of claim C1 (the producer blocks until all callers have
entered Do) holds for every schedule from initCfgM: no producer invocation
can precede the entry of the callers. -/

/-- Complete two-caller run on one key in which caller 0 executes the
producer, its deletion goroutine then retires the key before caller 1 reaches
the map lookup, and caller 1 therefore allocates a second call record and
executes the producer again. -/
def c1run : Option (CfgM Nat Nat Nat) :=
  runM (initCfgM Nat Nat Nat 2 0 (fun _ => (5, none)))
    [Act.thr 0, Act.thr 0, Act.thr 0, Act.thr 0, Act.del 0, Act.thr 0,
     Act.thr 1, Act.thr 1, Act.thr 1, Act.thr 1, Act.thr 1, Act.del 0]

/-- C1 (counterexample): two concurrent Do callers with the identical key 0 on
one freshly constructed group, both inside Do before any producer step, both
running Do to completion — yet the producer-invocation counter of the run is
2, not 1: the asynchronous retirement can fire between the first completion
and the second lookup, so the producer is not invoked exactly once.  This is
the schedule the repository test TestDoDupSuppress tolerates with its
assertion 0 < calls < n. -/
theorem C1_counterexample :
    Option.map (fun c => c.counter) c1run = some 2 ∧
    Option.map (fun c => (c.threads 0).pc) c1run = some PCm.halted ∧
    Option.map (fun c => (c.threads 1).pc) c1run = some PCm.halted := by
  refine ⟨by decide, by decide, by decide⟩

/-- Complete one-caller run whose producer returns the pair (7, error 3):
value 7 together with a non-nil error. -/
def c4run : Option (CfgM Nat Nat Nat) :=
  runM (initCfgM Nat Nat Nat 1 0 (fun _ => (7, some 3)))
    [Act.thr 0, Act.thr 0, Act.thr 0, Act.thr 0, Act.thr 0]

/-- C4 (counterexample): a producer that returns the error 3 together with the
value 7.  The caller attached to that invocation receives from Do the pair
(7, error 3) — the error verbatim, but the value 7 rather than the zero value
0 of the result type: Do stores and hands back whatever value the producer
returned next to its error. -/
theorem C4_counterexample :
    Option.map (fun c => (c.threads 0).res) c4run = some (some (7, some 3)) ∧
    (7 : Nat) ≠ (default : Nat) := by
  refine ⟨by decide, by decide⟩

/-- Complete two-caller run on one key in which caller 0 executes the producer
and returns, and caller 1 then attaches to the already-completed call record
and also runs Do to completion, before any deletion goroutine fires. -/
def c6run : Option (CfgM Nat Nat Nat) :=
  runM (initCfgM Nat Nat Nat 2 0 (fun _ => (5, none)))
    [Act.thr 0, Act.thr 0, Act.thr 0, Act.thr 0, Act.thr 0,
     Act.thr 1, Act.thr 1, Act.thr 1, Act.thr 1]

/-- C6 (counterexample): in the minimal variant a single producer invocation
(counter 1) ends with two scheduled removals of the key (pending [0, 0]):
caller 1 merely attached to the already-completed call (didExec false), yet
its Do also spawned a deletion goroutine, because singleflight.go lines 75-80
spawn the goroutine unconditionally on every Do invocation. -/
theorem C6_counterexample :
    Option.map (fun c => c.pending) c6run = some [0, 0] ∧
    Option.map (fun c => c.counter) c6run = some 1 ∧
    Option.map (fun c => (c.threads 1).didExec) c6run = some false ∧
    Option.map (fun c => (c.threads 1).pc) c6run = some PCm.halted := by
  refine ⟨by decide, by decide, by decide, by decide⟩

theorem stepM_thr_inversion [DecidableEq K] [Inhabited V] {c c2 : CfgM K V E} {t : Nat}
    (h : stepM c (Act.thr t) = some c2) :
    t < c.nthreads ∧
    (((c.threads t).pc = PCm.entry ∧
        ∃ ci, c.m (c.threads t).key = some ci ∧ c2 = mAttach c t ci) ∨
     ((c.threads t).pc = PCm.entry ∧ c.m (c.threads t).key = none ∧ c2 = mCreate c t) ∨
     ((c.threads t).pc = PCm.lockCall ∧ (c.calls (c.threads t).cref).mu = none ∧
        c2 = mLock c t) ∨
     ((c.threads t).pc = PCm.exec ∧ c2 = mExec c t) ∨
     ((c.threads t).pc = PCm.unlock ∧ c2 = mUnlock c t) ∨
     ((c.threads t).pc = PCm.ret ∧ c2 = mRet c t)) := by
  simp only [stepM] at h
  by_cases ht : t < c.nthreads
  · rw [if_pos ht] at h
    refine ⟨ht, ?_⟩
    cases hpc : (c.threads t).pc <;> rw [hpc] at h
    · cases hm : c.m (c.threads t).key <;> rw [hm] at h
      · exact Or.inr (Or.inl ⟨rfl, rfl, (Option.some.inj h).symm⟩)
      · exact Or.inl ⟨rfl, _, rfl, (Option.some.inj h).symm⟩
    · by_cases hmu : (c.calls (c.threads t).cref).mu = none
      · rw [if_pos hmu] at h
        exact Or.inr (Or.inr (Or.inl ⟨rfl, hmu, (Option.some.inj h).symm⟩))
      · rw [if_neg hmu] at h
        exact absurd h (by simp)
    · exact Or.inr (Or.inr (Or.inr (Or.inl ⟨rfl, (Option.some.inj h).symm⟩)))
    · exact Or.inr (Or.inr (Or.inr (Or.inr (Or.inl ⟨rfl, (Option.some.inj h).symm⟩))))
    · exact Or.inr (Or.inr (Or.inr (Or.inr (Or.inr ⟨rfl, (Option.some.inj h).symm⟩))))
    · exact absurd h (by simp)
  · rw [if_neg ht] at h
    exact absurd h (by simp)

theorem stepM_del_inversion [DecidableEq K] [Inhabited V] {c c2 : CfgM K V E} {i : Nat}
    (h : stepM c (Act.del i) = some c2) :
    ∃ k, c.pending.get? i = some k ∧ c2 = mDel c i k := by
  simp only [stepM] at h
  cases hp : c.pending.get? i <;> rw [hp] at h
  · exact absurd h (by simp)
  · exact ⟨_, rfl, (Option.some.inj h).symm⟩

/-- Number of threads among 0..n-1 that have executed their producer: the
value the test counter must have. -/
def countExec (f : Nat → ThreadM K V E) : Nat → Nat
  | 0 => 0
  | n + 1 => countExec f n + (if (f n).didExec then 1 else 0)

theorem countExec_congr {f g : Nat → ThreadM K V E} (n : Nat)
    (h : ∀ i, i < n → (f i).didExec = (g i).didExec) :
    countExec f n = countExec g n := by
  induction n with
  | zero => rfl
  | succ n ih =>
    simp only [countExec, ih (fun i hi => h i (Nat.lt_succ_of_lt hi)),
      h n (Nat.lt_succ_self n)]

theorem countExec_le (f : Nat → ThreadM K V E) (n : Nat) : countExec f n ≤ n := by
  induction n with
  | zero => exact Nat.le_refl 0
  | succ n ih => simp only [countExec]; split <;> omega

theorem countExec_pos (f : Nat → ThreadM K V E) {n t : Nat} (ht : t < n)
    (h : (f t).didExec = true) : 1 ≤ countExec f n := by
  induction n with
  | zero => omega
  | succ n ih =>
    simp only [countExec]
    by_cases htn : t = n
    · subst htn; simp [h]
    · have := ih (by omega); omega

theorem countExec_zero_of_all_false {f : Nat → ThreadM K V E} (n : Nat)
    (h : ∀ i, i < n → (f i).didExec = false) : countExec f n = 0 := by
  induction n with
  | zero => rfl
  | succ n ih =>
    simp only [countExec, ih (fun i hi => h i (Nat.lt_succ_of_lt hi)),
      h n (Nat.lt_succ_self n)]
    simp

theorem countExec_updf_same {f : Nat → ThreadM K V E} {t : Nat} {th : ThreadM K V E}
    (n : Nat) (h : th.didExec = (f t).didExec) :
    countExec (updf f t th) n = countExec f n := by
  refine countExec_congr n (fun i _ => ?_)
  by_cases hit : i = t
  · subst hit; rw [updf_same, h]
  · rw [updf_ne _ _ _ _ hit]

theorem countExec_updf_true {f : Nat → ThreadM K V E} {t n : Nat} {th : ThreadM K V E}
    (ht : t < n) (hf : (f t).didExec = false) (hth : th.didExec = true) :
    countExec (updf f t th) n = countExec f n + 1 := by
  induction n with
  | zero => omega
  | succ n ih =>
    by_cases htn : t = n
    · subst htn
      have h1 : countExec (updf f t th) t = countExec f t :=
        countExec_congr t (fun i hi => by rw [updf_ne _ _ _ _ (by omega)])
      simp only [countExec, h1, updf_same, hth, hf]
      simp
    · have h2 := ih (by omega)
      simp only [countExec, h2, updf_ne _ _ _ _ (by omega : n ≠ t)]
      omega

/-- Protocol invariant of the M model, satisfied by every configuration
reachable from an initial one.  The clauses are:
crefLt/mapLt  - call references held by threads past entry, and call indices
                stored in the map, point into the allocated heap;
execInv       - a thread about to run the producer holds the call mutex and
                the call is not yet done;
unlockInv     - a thread about to release holds the call mutex and the call
                is done;
retInv        - a thread past the release has a done call;
didExecPc     - an executor is past the producer run;
didExecFields - the call of an executor carries exactly the pair returned by
                the producer of that executor, and is done;
resInv        - a returned thread returned exactly the stored pair of its
                call record;
muInv         - the call mutex holder is a live thread on that very call,
                between its acquisition and its release;
doneExec      - a done call has an executor among the threads;
counterInv    - the invocation counter counts the executors. -/
structure InvM (c : CfgM K V E) : Prop where
  crefLt : ∀ t, t < c.nthreads → (c.threads t).pc ≠ PCm.entry →
    (c.threads t).cref < c.ncalls
  mapLt : ∀ k ci, c.m k = some ci → ci < c.ncalls
  execInv : ∀ t, t < c.nthreads → (c.threads t).pc = PCm.exec →
    (c.calls (c.threads t).cref).mu = some t ∧ (c.calls (c.threads t).cref).done = false
  unlockInv : ∀ t, t < c.nthreads → (c.threads t).pc = PCm.unlock →
    (c.calls (c.threads t).cref).mu = some t ∧ (c.calls (c.threads t).cref).done = true
  retInv : ∀ t, t < c.nthreads →
    ((c.threads t).pc = PCm.ret ∨ (c.threads t).pc = PCm.halted) →
    (c.calls (c.threads t).cref).done = true
  didExecPc : ∀ t, t < c.nthreads → (c.threads t).didExec = true →
    (c.threads t).pc = PCm.unlock ∨ (c.threads t).pc = PCm.ret ∨
    (c.threads t).pc = PCm.halted
  didExecFields : ∀ t, t < c.nthreads → (c.threads t).didExec = true →
    (c.calls (c.threads t).cref).value = (c.threads t).fnv ∧
    (c.calls (c.threads t).cref).err = (c.threads t).fne ∧
    (c.calls (c.threads t).cref).done = true
  resInv : ∀ t, t < c.nthreads → (c.threads t).pc = PCm.halted →
    (c.threads t).res =
      some ((c.calls (c.threads t).cref).value, (c.calls (c.threads t).cref).err)
  muInv : ∀ i, i < c.ncalls → ∀ t, (c.calls i).mu = some t →
    t < c.nthreads ∧ (c.threads t).cref = i ∧
    ((c.threads t).pc = PCm.exec ∨ (c.threads t).pc = PCm.unlock)
  doneExec : ∀ i, i < c.ncalls → (c.calls i).done = true →
    ∃ t, t < c.nthreads ∧ (c.threads t).didExec = true ∧ (c.threads t).cref = i
  counterInv : c.counter = countExec c.threads c.nthreads

theorem InvM_mRet {c : CfgM K V E} {t : Nat} (inv : InvM c)
    (ht : t < c.nthreads) (hpc : (c.threads t).pc = PCm.ret) :
    InvM (mRet c t) := by
  have hde : ∀ u, ((mRet c t).threads u).didExec = (c.threads u).didExec := by
    intro u
    by_cases hut : u = t
    · subst hut; simp [mRet, updf_same]
    · simp [mRet, updf_ne _ _ _ _ hut]
  refine ⟨?_, ?_, ?_, ?_, ?_, ?_, ?_, ?_, ?_, ?_, ?_⟩
  · intro u hu hne
    by_cases hut : u = t
    · subst hut
      simpa [mRet, updf_same] using inv.crefLt u hu (by rw [hpc]; simp)
    · simpa [mRet, updf_ne _ _ _ _ hut] using
        inv.crefLt u (by simpa [mRet] using hu) (by simpa [mRet, updf_ne _ _ _ _ hut] using hne)
  · intro k ci hk
    exact inv.mapLt k ci (by simpa [mRet] using hk)
  · intro u hu hpcu
    by_cases hut : u = t
    · subst hut; simp [mRet, updf_same] at hpcu
    · simp only [mRet, updf_ne _ _ _ _ hut] at hpcu ⊢
      exact inv.execInv u (by simpa [mRet] using hu) hpcu
  · intro u hu hpcu
    by_cases hut : u = t
    · subst hut; simp [mRet, updf_same] at hpcu
    · simp only [mRet, updf_ne _ _ _ _ hut] at hpcu ⊢
      exact inv.unlockInv u (by simpa [mRet] using hu) hpcu
  · intro u hu hpcu
    by_cases hut : u = t
    · subst hut
      simpa [mRet, updf_same] using inv.retInv u hu (Or.inl hpc)
    · simp only [mRet, updf_ne _ _ _ _ hut] at hpcu ⊢
      exact inv.retInv u (by simpa [mRet] using hu) hpcu
  · intro u hu hdeu
    by_cases hut : u = t
    · subst hut; simp [mRet, updf_same]
    · simp only [mRet, updf_ne _ _ _ _ hut] at hdeu ⊢
      exact inv.didExecPc u (by simpa [mRet] using hu) hdeu
  · intro u hu hdeu
    by_cases hut : u = t
    · subst hut
      simpa [mRet, updf_same] using inv.didExecFields u hu (by simpa [hde] using hdeu)
    · simp only [mRet, updf_ne _ _ _ _ hut] at hdeu ⊢
      exact inv.didExecFields u (by simpa [mRet] using hu) hdeu
  · intro u hu hpcu
    by_cases hut : u = t
    · subst hut; simp [mRet, updf_same]
    · simp only [mRet, updf_ne _ _ _ _ hut] at hpcu ⊢
      exact inv.resInv u (by simpa [mRet] using hu) hpcu
  · intro i hi u hmu
    have h0 := inv.muInv i (by simpa [mRet] using hi) u (by simpa [mRet] using hmu)
    have hut : u ≠ t := by
      intro he
      subst he
      rcases h0.2.2 with h1 | h1 <;> rw [hpc] at h1 <;> exact absurd h1 (by simp)
    refine ⟨by simpa [mRet] using h0.1, ?_, ?_⟩
    · simpa [mRet, updf_ne _ _ _ _ hut] using h0.2.1
    · simpa [mRet, updf_ne _ _ _ _ hut] using h0.2.2
  · intro i hi hdone
    obtain ⟨u, hu, hdu, hcu⟩ := inv.doneExec i (by simpa [mRet] using hi) (by simpa [mRet] using hdone)
    refine ⟨u, by simpa [mRet] using hu, by rw [hde]; exact hdu, ?_⟩
    by_cases hut : u = t
    · subst hut; simp [mRet, updf_same]; exact hcu
    · simpa [mRet, updf_ne _ _ _ _ hut] using hcu
  · have : (mRet c t).counter = c.counter := by simp [mRet]
    rw [this, inv.counterInv]
    have hn : (mRet c t).nthreads = c.nthreads := by simp [mRet]
    rw [hn]
    exact (countExec_congr c.nthreads (fun i _ => (hde i))).symm

theorem InvM_mAttach {c : CfgM K V E} {t ci : Nat} (inv : InvM c)
    (ht : t < c.nthreads) (hpc : (c.threads t).pc = PCm.entry)
    (hm : c.m (c.threads t).key = some ci) :
    InvM (mAttach c t ci) := by
  have hde : ∀ u, ((mAttach c t ci).threads u).didExec = (c.threads u).didExec := by
    intro u
    by_cases hut : u = t
    · subst hut; simp [mAttach, updf_same]
    · simp [mAttach, updf_ne _ _ _ _ hut]
  have hdet : (c.threads t).didExec = false := by
    cases hh : (c.threads t).didExec
    · rfl
    · rcases inv.didExecPc t ht hh with h1 | h1 | h1 <;> rw [hpc] at h1 <;> simp at h1
  refine ⟨?_, ?_, ?_, ?_, ?_, ?_, ?_, ?_, ?_, ?_, ?_⟩
  · intro u hu hne
    by_cases hut : u = t
    · subst hut
      simpa [mAttach, updf_same] using inv.mapLt _ ci hm
    · simpa [mAttach, updf_ne _ _ _ _ hut] using
        inv.crefLt u (by simpa [mAttach] using hu)
          (by simpa [mAttach, updf_ne _ _ _ _ hut] using hne)
  · intro k ci2 hk
    exact inv.mapLt k ci2 (by simpa [mAttach] using hk)
  · intro u hu hpcu
    by_cases hut : u = t
    · subst hut; simp [mAttach, updf_same] at hpcu
    · simp only [mAttach, updf_ne _ _ _ _ hut] at hpcu ⊢
      exact inv.execInv u (by simpa [mAttach] using hu) hpcu
  · intro u hu hpcu
    by_cases hut : u = t
    · subst hut; simp [mAttach, updf_same] at hpcu
    · simp only [mAttach, updf_ne _ _ _ _ hut] at hpcu ⊢
      exact inv.unlockInv u (by simpa [mAttach] using hu) hpcu
  · intro u hu hpcu
    by_cases hut : u = t
    · subst hut; simp [mAttach, updf_same] at hpcu
    · simp only [mAttach, updf_ne _ _ _ _ hut] at hpcu ⊢
      exact inv.retInv u (by simpa [mAttach] using hu) hpcu
  · intro u hu hdeu
    by_cases hut : u = t
    · subst hut
      rw [hde u] at hdeu
      rw [hdet] at hdeu
      simp at hdeu
    · simp only [mAttach, updf_ne _ _ _ _ hut] at hdeu ⊢
      exact inv.didExecPc u (by simpa [mAttach] using hu) hdeu
  · intro u hu hdeu
    by_cases hut : u = t
    · subst hut
      rw [hde u, hdet] at hdeu
      simp at hdeu
    · simp only [mAttach, updf_ne _ _ _ _ hut] at hdeu ⊢
      exact inv.didExecFields u (by simpa [mAttach] using hu) hdeu
  · intro u hu hpcu
    by_cases hut : u = t
    · subst hut; simp [mAttach, updf_same] at hpcu
    · simp only [mAttach, updf_ne _ _ _ _ hut] at hpcu ⊢
      exact inv.resInv u (by simpa [mAttach] using hu) hpcu
  · intro i hi u hmu
    have h0 := inv.muInv i (by simpa [mAttach] using hi) u (by simpa [mAttach] using hmu)
    have hut : u ≠ t := by
      intro he
      subst he
      rcases h0.2.2 with h1 | h1 <;> rw [hpc] at h1 <;> simp at h1
    refine ⟨by simpa [mAttach] using h0.1, ?_, ?_⟩
    · simpa [mAttach, updf_ne _ _ _ _ hut] using h0.2.1
    · simpa [mAttach, updf_ne _ _ _ _ hut] using h0.2.2
  · intro i hi hdone
    obtain ⟨u, hu, hdu, hcu⟩ :=
      inv.doneExec i (by simpa [mAttach] using hi) (by simpa [mAttach] using hdone)
    have hut : u ≠ t := by
      intro he
      subst he
      rw [hdet] at hdu
      simp at hdu
    refine ⟨u, by simpa [mAttach] using hu, by rw [hde]; exact hdu, ?_⟩
    simpa [mAttach, updf_ne _ _ _ _ hut] using hcu
  · have h1 : (mAttach c t ci).counter = c.counter := by simp [mAttach]
    have hn : (mAttach c t ci).nthreads = c.nthreads := by simp [mAttach]
    rw [h1, hn, inv.counterInv]
    exact (countExec_congr c.nthreads (fun i _ => hde i)).symm

theorem InvM_mDel [DecidableEq K] {c : CfgM K V E} {i : Nat} {k : K} (inv : InvM c) :
    InvM (mDel c i k) := by
  refine ⟨?_, ?_, ?_, ?_, ?_, ?_, ?_, ?_, ?_, ?_, ?_⟩
  · intro u hu hne
    exact inv.crefLt u (by simpa [mDel] using hu) (by simpa [mDel] using hne)
  · intro k2 ci hk
    simp only [mDel] at hk
    by_cases he : k2 = k
    · rw [if_pos he] at hk; cases hk
    · rw [if_neg he] at hk
      exact inv.mapLt k2 ci hk
  · intro u hu hpcu
    exact inv.execInv u (by simpa [mDel] using hu) (by simpa [mDel] using hpcu)
  · intro u hu hpcu
    exact inv.unlockInv u (by simpa [mDel] using hu) (by simpa [mDel] using hpcu)
  · intro u hu hpcu
    exact inv.retInv u (by simpa [mDel] using hu) (by simpa [mDel] using hpcu)
  · intro u hu hdeu
    exact inv.didExecPc u (by simpa [mDel] using hu) (by simpa [mDel] using hdeu)
  · intro u hu hdeu
    exact inv.didExecFields u (by simpa [mDel] using hu) (by simpa [mDel] using hdeu)
  · intro u hu hpcu
    exact inv.resInv u (by simpa [mDel] using hu) (by simpa [mDel] using hpcu)
  · intro j hj u hmu
    exact inv.muInv j (by simpa [mDel] using hj) u (by simpa [mDel] using hmu)
  · intro j hj hdone
    exact inv.doneExec j (by simpa [mDel] using hj) (by simpa [mDel] using hdone)
  · have h1 : (mDel c i k).counter = c.counter := by simp [mDel]
    have hn : (mDel c i k).nthreads = c.nthreads := by simp [mDel]
    rw [h1, hn, inv.counterInv]
    exact countExec_congr c.nthreads (fun j _ => by simp [mDel])

theorem InvM_mUnlock {c : CfgM K V E} {t : Nat} (inv : InvM c)
    (ht : t < c.nthreads) (hpc : (c.threads t).pc = PCm.unlock) :
    InvM (mUnlock c t) := by
  have hmt := (inv.unlockInv t ht hpc).1
  have hdt := (inv.unlockInv t ht hpc).2
  have hnth : (mUnlock c t).nthreads = c.nthreads := rfl
  have hth : ∀ u, ((mUnlock c t).threads u).key = (c.threads u).key ∧
      ((mUnlock c t).threads u).fnv = (c.threads u).fnv ∧
      ((mUnlock c t).threads u).fne = (c.threads u).fne ∧
      ((mUnlock c t).threads u).cref = (c.threads u).cref ∧
      ((mUnlock c t).threads u).didExec = (c.threads u).didExec ∧
      ((mUnlock c t).threads u).res = (c.threads u).res := by
    intro u
    by_cases hut : u = t
    · subst hut; simp [mUnlock, updf_same]
    · simp [mUnlock, updf_ne _ _ _ _ hut]
  have hpcne : ∀ u, u ≠ t → ((mUnlock c t).threads u).pc = (c.threads u).pc := by
    intro u hut
    simp [mUnlock, updf_ne _ _ _ _ hut]
  have hpct : ((mUnlock c t).threads t).pc = PCm.ret := by
    simp [mUnlock, updf_same]
  have hclv : ∀ j, ((mUnlock c t).calls j).value = (c.calls j).value ∧
      ((mUnlock c t).calls j).err = (c.calls j).err ∧
      ((mUnlock c t).calls j).done = (c.calls j).done := by
    intro j
    by_cases hj : j = (c.threads t).cref
    · subst hj; simp [mUnlock, updf_same]
    · simp [mUnlock, updf_ne _ _ _ _ hj]
  have hclmu : ∀ j, j ≠ (c.threads t).cref →
      ((mUnlock c t).calls j).mu = (c.calls j).mu := by
    intro j hj
    simp [mUnlock, updf_ne _ _ _ _ hj]
  have hclmut : ((mUnlock c t).calls (c.threads t).cref).mu = none := by
    simp [mUnlock, updf_same]
  have hneq : ∀ u, u < c.nthreads → u ≠ t →
      ((c.threads u).pc = PCm.exec ∨ (c.threads u).pc = PCm.unlock) →
      (c.threads u).cref ≠ (c.threads t).cref := by
    intro u hu hut hpcu he
    have h0 : (c.calls (c.threads u).cref).mu = some u := by
      rcases hpcu with h1 | h1
      · exact (inv.execInv u hu h1).1
      · exact (inv.unlockInv u hu h1).1
    rw [he, hmt] at h0
    exact hut (Option.some.inj h0).symm
  refine ⟨?_, ?_, ?_, ?_, ?_, ?_, ?_, ?_, ?_, ?_, ?_⟩
  · intro u hu hne
    rw [hnth] at hu
    rw [(hth u).2.2.2.1]
    by_cases hut : u = t
    · subst hut
      exact inv.crefLt u hu (by rw [hpc]; simp)
    · rw [hpcne u hut] at hne
      exact inv.crefLt u hu hne
  · intro k ci hk
    exact inv.mapLt k ci hk
  · intro u hu hpcu
    rw [hnth] at hu
    by_cases hut : u = t
    · subst hut; rw [hpct] at hpcu; cases hpcu
    · rw [hpcne u hut] at hpcu
      have h0 := inv.execInv u hu hpcu
      have hcc := hneq u hu hut (Or.inl hpcu)
      rw [(hth u).2.2.2.1, hclmu _ hcc, (hclv (c.threads u).cref).2.2]
      exact h0
  · intro u hu hpcu
    rw [hnth] at hu
    by_cases hut : u = t
    · subst hut; rw [hpct] at hpcu; cases hpcu
    · rw [hpcne u hut] at hpcu
      have h0 := inv.unlockInv u hu hpcu
      have hcc := hneq u hu hut (Or.inr hpcu)
      rw [(hth u).2.2.2.1, hclmu _ hcc, (hclv (c.threads u).cref).2.2]
      exact h0
  · intro u hu hpcu
    rw [hnth] at hu
    rw [(hth u).2.2.2.1, (hclv (c.threads u).cref).2.2]
    by_cases hut : u = t
    · subst hut
      exact hdt
    · rw [hpcne u hut] at hpcu
      exact inv.retInv u hu hpcu
  · intro u hu hdeu
    rw [hnth] at hu
    rw [(hth u).2.2.2.2.1] at hdeu
    by_cases hut : u = t
    · subst hut
      rw [hpct]
      simp
    · rw [hpcne u hut]
      exact inv.didExecPc u hu hdeu
  · intro u hu hdeu
    rw [hnth] at hu
    rw [(hth u).2.2.2.2.1] at hdeu
    have h0 := inv.didExecFields u hu hdeu
    rw [(hth u).2.2.2.1, (hth u).2.1, (hth u).2.2.1,
      (hclv (c.threads u).cref).1, (hclv (c.threads u).cref).2.1,
      (hclv (c.threads u).cref).2.2]
    exact h0
  · intro u hu hpcu
    rw [hnth] at hu
    by_cases hut : u = t
    · subst hut; rw [hpct] at hpcu; cases hpcu
    · rw [hpcne u hut] at hpcu
      rw [(hth u).2.2.2.2.2, (hth u).2.2.2.1,
        (hclv (c.threads u).cref).1, (hclv (c.threads u).cref).2.1]
      exact inv.resInv u hu hpcu
  · intro i hi u hmu
    by_cases hic : i = (c.threads t).cref
    · subst hic
      rw [hclmut] at hmu
      cases hmu
    · rw [hclmu _ hic] at hmu
      have h0 := inv.muInv i hi u hmu
      have hut : u ≠ t := fun he => hic (by rw [← h0.2.1, he])
      rw [hnth, (hth u).2.2.2.1, hpcne u hut]
      exact h0
  · intro i hi hdone
    rw [(hclv i).2.2] at hdone
    obtain ⟨u, hu, hdu, hcu⟩ := inv.doneExec i hi hdone
    exact ⟨u, by rw [hnth]; exact hu, by rw [(hth u).2.2.2.2.1]; exact hdu,
      by rw [(hth u).2.2.2.1]; exact hcu⟩
  · have h1 : (mUnlock c t).counter = c.counter := rfl
    rw [h1, hnth, inv.counterInv]
    exact (countExec_congr c.nthreads (fun j _ => (hth j).2.2.2.2.1)).symm

theorem InvM_mLock {c : CfgM K V E} {t : Nat} (inv : InvM c)
    (ht : t < c.nthreads) (hpc : (c.threads t).pc = PCm.lockCall)
    (hmu : (c.calls (c.threads t).cref).mu = none) :
    InvM (mLock c t) := by
  have hnth : (mLock c t).nthreads = c.nthreads := rfl
  have hth : ∀ u, ((mLock c t).threads u).key = (c.threads u).key ∧
      ((mLock c t).threads u).fnv = (c.threads u).fnv ∧
      ((mLock c t).threads u).fne = (c.threads u).fne ∧
      ((mLock c t).threads u).cref = (c.threads u).cref ∧
      ((mLock c t).threads u).didExec = (c.threads u).didExec ∧
      ((mLock c t).threads u).res = (c.threads u).res := by
    intro u
    by_cases hut : u = t
    · subst hut; simp [mLock, updf_same]
    · simp [mLock, updf_ne _ _ _ _ hut]
  have hpcne : ∀ u, u ≠ t → ((mLock c t).threads u).pc = (c.threads u).pc := by
    intro u hut
    simp [mLock, updf_ne _ _ _ _ hut]
  have hpct : ((mLock c t).threads t).pc =
      (if (c.calls (c.threads t).cref).done then PCm.unlock else PCm.exec) := by
    simp [mLock, updf_same]
  have hclv : ∀ j, ((mLock c t).calls j).value = (c.calls j).value ∧
      ((mLock c t).calls j).err = (c.calls j).err ∧
      ((mLock c t).calls j).done = (c.calls j).done := by
    intro j
    by_cases hj : j = (c.threads t).cref
    · subst hj; simp [mLock, updf_same]
    · simp [mLock, updf_ne _ _ _ _ hj]
  have hclmu : ∀ j, j ≠ (c.threads t).cref →
      ((mLock c t).calls j).mu = (c.calls j).mu := by
    intro j hj
    simp [mLock, updf_ne _ _ _ _ hj]
  have hclmut : ((mLock c t).calls (c.threads t).cref).mu = some t := by
    simp [mLock, updf_same]
  have hdet : (c.threads t).didExec = false := by
    cases hh : (c.threads t).didExec
    · rfl
    · rcases inv.didExecPc t ht hh with h1 | h1 | h1 <;> rw [hpc] at h1 <;> cases h1
  have hneq : ∀ u, u < c.nthreads → u ≠ t →
      ((c.threads u).pc = PCm.exec ∨ (c.threads u).pc = PCm.unlock) →
      (c.threads u).cref ≠ (c.threads t).cref := by
    intro u hu _ hpcu he
    have h0 : (c.calls (c.threads u).cref).mu = some u := by
      rcases hpcu with h1 | h1
      · exact (inv.execInv u hu h1).1
      · exact (inv.unlockInv u hu h1).1
    rw [he, hmu] at h0
    cases h0
  refine ⟨?_, ?_, ?_, ?_, ?_, ?_, ?_, ?_, ?_, ?_, ?_⟩
  · intro u hu hne
    rw [hnth] at hu
    rw [(hth u).2.2.2.1]
    by_cases hut : u = t
    · subst hut
      exact inv.crefLt u hu (by rw [hpc]; simp)
    · rw [hpcne u hut] at hne
      exact inv.crefLt u hu hne
  · intro k ci hk
    exact inv.mapLt k ci hk
  · intro u hu hpcu
    rw [hnth] at hu
    by_cases hut : u = t
    · subst hut
      rw [(hth u).2.2.2.1, hclmut, (hclv (c.threads u).cref).2.2]
      rw [hpct] at hpcu
      by_cases hdone : (c.calls (c.threads u).cref).done
      · rw [if_pos hdone] at hpcu; cases hpcu
      · exact ⟨rfl, by simpa using hdone⟩
    · rw [hpcne u hut] at hpcu
      have h0 := inv.execInv u hu hpcu
      have hcc := hneq u hu hut (Or.inl hpcu)
      rw [(hth u).2.2.2.1, hclmu _ hcc, (hclv (c.threads u).cref).2.2]
      exact h0
  · intro u hu hpcu
    rw [hnth] at hu
    by_cases hut : u = t
    · subst hut
      rw [(hth u).2.2.2.1, hclmut, (hclv (c.threads u).cref).2.2]
      rw [hpct] at hpcu
      by_cases hdone : (c.calls (c.threads u).cref).done
      · exact ⟨rfl, hdone⟩
      · rw [if_neg hdone] at hpcu; cases hpcu
    · rw [hpcne u hut] at hpcu
      have h0 := inv.unlockInv u hu hpcu
      have hcc := hneq u hu hut (Or.inr hpcu)
      rw [(hth u).2.2.2.1, hclmu _ hcc, (hclv (c.threads u).cref).2.2]
      exact h0
  · intro u hu hpcu
    rw [hnth] at hu
    rw [(hth u).2.2.2.1, (hclv (c.threads u).cref).2.2]
    by_cases hut : u = t
    · subst hut
      rw [hpct] at hpcu
      by_cases hdone : (c.calls (c.threads u).cref).done
      · rw [if_pos hdone] at hpcu
        rcases hpcu with h1 | h1 <;> cases h1
      · rw [if_neg hdone] at hpcu
        rcases hpcu with h1 | h1 <;> cases h1
    · rw [hpcne u hut] at hpcu
      exact inv.retInv u hu hpcu
  · intro u hu hdeu
    rw [hnth] at hu
    rw [(hth u).2.2.2.2.1] at hdeu
    by_cases hut : u = t
    · subst hut
      rw [hdet] at hdeu
      cases hdeu
    · rw [hpcne u hut]
      exact inv.didExecPc u hu hdeu
  · intro u hu hdeu
    rw [hnth] at hu
    rw [(hth u).2.2.2.2.1] at hdeu
    have h0 := inv.didExecFields u hu hdeu
    rw [(hth u).2.2.2.1, (hth u).2.1, (hth u).2.2.1,
      (hclv (c.threads u).cref).1, (hclv (c.threads u).cref).2.1,
      (hclv (c.threads u).cref).2.2]
    exact h0
  · intro u hu hpcu
    rw [hnth] at hu
    by_cases hut : u = t
    · subst hut
      rw [hpct] at hpcu
      by_cases hdone : (c.calls (c.threads u).cref).done
      · rw [if_pos hdone] at hpcu; cases hpcu
      · rw [if_neg hdone] at hpcu; cases hpcu
    · rw [hpcne u hut] at hpcu
      rw [(hth u).2.2.2.2.2, (hth u).2.2.2.1,
        (hclv (c.threads u).cref).1, (hclv (c.threads u).cref).2.1]
      exact inv.resInv u hu hpcu
  · intro i hi u hmu2
    by_cases hic : i = (c.threads t).cref
    · subst hic
      rw [hclmut] at hmu2
      have hut : t = u := Option.some.inj hmu2
      subst hut
      rw [hnth, (hth t).2.2.2.1, hpct]
      refine ⟨ht, rfl, ?_⟩
      by_cases hdone : (c.calls (c.threads t).cref).done
      · rw [if_pos hdone]; exact Or.inr rfl
      · rw [if_neg hdone]; exact Or.inl rfl
    · rw [hclmu _ hic] at hmu2
      have h0 := inv.muInv i hi u hmu2
      have hut : u ≠ t := by
        intro he
        subst he
        rcases h0.2.2 with h1 | h1 <;> rw [hpc] at h1 <;> cases h1
      rw [hnth, (hth u).2.2.2.1, hpcne u hut]
      exact h0
  · intro i hi hdone
    rw [(hclv i).2.2] at hdone
    obtain ⟨u, hu, hdu, hcu⟩ := inv.doneExec i hi hdone
    exact ⟨u, by rw [hnth]; exact hu, by rw [(hth u).2.2.2.2.1]; exact hdu,
      by rw [(hth u).2.2.2.1]; exact hcu⟩
  · have h1 : (mLock c t).counter = c.counter := rfl
    rw [h1, hnth, inv.counterInv]
    exact (countExec_congr c.nthreads (fun j _ => (hth j).2.2.2.2.1)).symm

theorem InvM_mExec {c : CfgM K V E} {t : Nat} (inv : InvM c)
    (ht : t < c.nthreads) (hpc : (c.threads t).pc = PCm.exec) :
    InvM (mExec c t) := by
  have hmut := (inv.execInv t ht hpc).1
  have hdf := (inv.execInv t ht hpc).2
  have hdet : (c.threads t).didExec = false := by
    cases hh : (c.threads t).didExec
    · rfl
    · rcases inv.didExecPc t ht hh with h1 | h1 | h1 <;> rw [hpc] at h1 <;> cases h1
  have hnth : (mExec c t).nthreads = c.nthreads := rfl
  have hth : ∀ u, ((mExec c t).threads u).key = (c.threads u).key ∧
      ((mExec c t).threads u).fnv = (c.threads u).fnv ∧
      ((mExec c t).threads u).fne = (c.threads u).fne ∧
      ((mExec c t).threads u).cref = (c.threads u).cref ∧
      ((mExec c t).threads u).res = (c.threads u).res := by
    intro u
    by_cases hut : u = t
    · subst hut; simp [mExec, updf_same]
    · simp [mExec, updf_ne _ _ _ _ hut]
  have hdene : ∀ u, u ≠ t → ((mExec c t).threads u).didExec = (c.threads u).didExec := by
    intro u hut
    simp [mExec, updf_ne _ _ _ _ hut]
  have hdett : ((mExec c t).threads t).didExec = true := by
    simp [mExec, updf_same]
  have hpcne : ∀ u, u ≠ t → ((mExec c t).threads u).pc = (c.threads u).pc := by
    intro u hut
    simp [mExec, updf_ne _ _ _ _ hut]
  have hpct : ((mExec c t).threads t).pc = PCm.unlock := by
    simp [mExec, updf_same]
  have hclne : ∀ j, j ≠ (c.threads t).cref → (mExec c t).calls j = c.calls j := by
    intro j hj
    simp [mExec, updf_ne _ _ _ _ hj]
  have hcltmu : ((mExec c t).calls (c.threads t).cref).mu = some t := by
    have h1 : ((mExec c t).calls (c.threads t).cref).mu =
        (c.calls (c.threads t).cref).mu := by
      simp [mExec, updf_same]
    rw [h1, hmut]
  have hcltv : ((mExec c t).calls (c.threads t).cref).value = (c.threads t).fnv := by
    simp [mExec, updf_same]
  have hclte : ((mExec c t).calls (c.threads t).cref).err = (c.threads t).fne := by
    simp [mExec, updf_same]
  have hcltd : ((mExec c t).calls (c.threads t).cref).done = true := by
    simp [mExec, updf_same]
  have hneq : ∀ u, u < c.nthreads → u ≠ t →
      ((c.threads u).pc = PCm.exec ∨ (c.threads u).pc = PCm.unlock) →
      (c.threads u).cref ≠ (c.threads t).cref := by
    intro u hu hut hpcu he
    have h0 : (c.calls (c.threads u).cref).mu = some u := by
      rcases hpcu with h1 | h1
      · exact (inv.execInv u hu h1).1
      · exact (inv.unlockInv u hu h1).1
    rw [he, hmut] at h0
    exact hut (Option.some.inj h0).symm
  have hneqDone : ∀ u, u < c.nthreads →
      (c.calls (c.threads u).cref).done = true → (c.threads u).cref ≠ (c.threads t).cref := by
    intro u _ hdone he
    rw [he, hdf] at hdone
    cases hdone
  refine ⟨?_, ?_, ?_, ?_, ?_, ?_, ?_, ?_, ?_, ?_, ?_⟩
  · intro u hu hne
    rw [hnth] at hu
    rw [(hth u).2.2.2.1]
    by_cases hut : u = t
    · subst hut
      exact inv.crefLt u hu (by rw [hpc]; simp)
    · rw [hpcne u hut] at hne
      exact inv.crefLt u hu hne
  · intro k ci hk
    exact inv.mapLt k ci hk
  · intro u hu hpcu
    rw [hnth] at hu
    by_cases hut : u = t
    · subst hut; rw [hpct] at hpcu; cases hpcu
    · rw [hpcne u hut] at hpcu
      have h0 := inv.execInv u hu hpcu
      have hcc := hneq u hu hut (Or.inl hpcu)
      rw [(hth u).2.2.2.1, hclne _ hcc]
      exact h0
  · intro u hu hpcu
    rw [hnth] at hu
    by_cases hut : u = t
    · subst hut
      rw [(hth u).2.2.2.1]
      exact ⟨hcltmu, hcltd⟩
    · rw [hpcne u hut] at hpcu
      have h0 := inv.unlockInv u hu hpcu
      have hcc := hneq u hu hut (Or.inr hpcu)
      rw [(hth u).2.2.2.1, hclne _ hcc]
      exact h0
  · intro u hu hpcu
    rw [hnth] at hu
    by_cases hut : u = t
    · subst hut; rw [hpct] at hpcu
      rcases hpcu with h1 | h1 <;> cases h1
    · rw [hpcne u hut] at hpcu
      have h0 := inv.retInv u hu hpcu
      rw [(hth u).2.2.2.1]
      by_cases hcc : (c.threads u).cref = (c.threads t).cref
      · rw [hcc]
        exact hcltd
      · rw [hclne _ hcc]
        exact h0
  · intro u hu hdeu
    rw [hnth] at hu
    by_cases hut : u = t
    · subst hut
      rw [hpct]
      exact Or.inl rfl
    · rw [hdene u hut] at hdeu
      rw [hpcne u hut]
      exact inv.didExecPc u hu hdeu
  · intro u hu hdeu
    rw [hnth] at hu
    by_cases hut : u = t
    · subst hut
      rw [(hth u).2.2.2.1, (hth u).2.1, (hth u).2.2.1]
      exact ⟨hcltv, hclte, hcltd⟩
    · rw [hdene u hut] at hdeu
      have h0 := inv.didExecFields u hu hdeu
      have hcc := hneqDone u hu h0.2.2
      rw [(hth u).2.2.2.1, hclne _ hcc, (hth u).2.1, (hth u).2.2.1]
      exact h0
  · intro u hu hpcu
    rw [hnth] at hu
    by_cases hut : u = t
    · subst hut; rw [hpct] at hpcu; cases hpcu
    · rw [hpcne u hut] at hpcu
      have h0 := inv.resInv u hu hpcu
      have hcc := hneqDone u hu (inv.retInv u hu (Or.inr hpcu))
      rw [(hth u).2.2.2.2, (hth u).2.2.2.1, hclne _ hcc]
      exact h0
  · intro i hi u hmu2
    by_cases hic : i = (c.threads t).cref
    · subst hic
      rw [hcltmu] at hmu2
      have hut : t = u := Option.some.inj hmu2
      subst hut
      rw [hnth, (hth t).2.2.2.1, hpct]
      exact ⟨ht, rfl, Or.inr rfl⟩
    · rw [hclne _ hic] at hmu2
      have h0 := inv.muInv i hi u hmu2
      have hut : u ≠ t := fun he => hic (by rw [← h0.2.1, he])
      rw [hnth, (hth u).2.2.2.1, hpcne u hut]
      exact h0
  · intro i hi hdone
    by_cases hic : i = (c.threads t).cref
    · subst hic
      exact ⟨t, by rw [hnth]; exact ht, hdett, by rw [(hth t).2.2.2.1]⟩
    · rw [hclne _ hic] at hdone
      obtain ⟨u, hu, hdu, hcu⟩ := inv.doneExec i hi hdone
      have hut : u ≠ t := by
        intro he
        subst he
        rw [hdet] at hdu
        cases hdu
      exact ⟨u, by rw [hnth]; exact hu, by rw [hdene u hut]; exact hdu,
        by rw [(hth u).2.2.2.1]; exact hcu⟩
  · have h1 : (mExec c t).counter = c.counter + 1 := rfl
    rw [h1, hnth, inv.counterInv]
    exact (countExec_updf_true ht hdet (by rfl)).symm

theorem InvM_mCreate [DecidableEq K] [Inhabited V] {c : CfgM K V E} {t : Nat} (inv : InvM c)
    (ht : t < c.nthreads) (hpc : (c.threads t).pc = PCm.entry) :
    InvM (mCreate c t) := by
  have hdet : (c.threads t).didExec = false := by
    cases hh : (c.threads t).didExec
    · rfl
    · rcases inv.didExecPc t ht hh with h1 | h1 | h1 <;> rw [hpc] at h1 <;> cases h1
  have hnth : (mCreate c t).nthreads = c.nthreads := rfl
  have hnc : (mCreate c t).ncalls = c.ncalls + 1 := rfl
  have hthne : ∀ u, u ≠ t → (mCreate c t).threads u = c.threads u := by
    intro u hut
    simp [mCreate, updf_ne _ _ _ _ hut]
  have hth : ∀ u, ((mCreate c t).threads u).key = (c.threads u).key ∧
      ((mCreate c t).threads u).fnv = (c.threads u).fnv ∧
      ((mCreate c t).threads u).fne = (c.threads u).fne ∧
      ((mCreate c t).threads u).didExec = (c.threads u).didExec ∧
      ((mCreate c t).threads u).res = (c.threads u).res := by
    intro u
    by_cases hut : u = t
    · subst hut; simp [mCreate, updf_same]
    · rw [hthne u hut]
      exact ⟨rfl, rfl, rfl, rfl, rfl⟩
  have hpct : ((mCreate c t).threads t).pc = PCm.lockCall := by
    simp [mCreate, updf_same]
  have hcreft : ((mCreate c t).threads t).cref = c.ncalls := by
    simp [mCreate, updf_same]
  have hclne : ∀ j, j ≠ c.ncalls → (mCreate c t).calls j = c.calls j := by
    intro j hj
    simp [mCreate, updf_ne _ _ _ _ hj]
  have hclnew : (mCreate c t).calls c.ncalls = newCall V E := by
    simp [mCreate, updf_same]
  have hcrefold : ∀ u, u < c.nthreads → (c.threads u).pc ≠ PCm.entry →
      (c.threads u).cref ≠ c.ncalls := by
    intro u hu hne
    have := inv.crefLt u hu hne
    omega
  refine ⟨?_, ?_, ?_, ?_, ?_, ?_, ?_, ?_, ?_, ?_, ?_⟩
  · intro u hu hne
    rw [hnth] at hu
    rw [hnc]
    by_cases hut : u = t
    · subst hut
      rw [hcreft]
      omega
    · rw [hthne u hut] at hne ⊢
      have := inv.crefLt u hu hne
      omega
  · intro k ci hk
    rw [hnc]
    simp only [mCreate] at hk
    by_cases he : k = (c.threads t).key
    · rw [if_pos he] at hk
      have : ci = c.ncalls := by cases hk; rfl
      omega
    · rw [if_neg he] at hk
      have := inv.mapLt k ci hk
      omega
  · intro u hu hpcu
    rw [hnth] at hu
    by_cases hut : u = t
    · subst hut; rw [hpct] at hpcu; cases hpcu
    · rw [hthne u hut] at hpcu ⊢
      have h0 := inv.execInv u hu hpcu
      have hcc := hcrefold u hu (by rw [hpcu]; intro h3; cases h3)
      rw [hclne _ hcc]
      exact h0
  · intro u hu hpcu
    rw [hnth] at hu
    by_cases hut : u = t
    · subst hut; rw [hpct] at hpcu; cases hpcu
    · rw [hthne u hut] at hpcu ⊢
      have h0 := inv.unlockInv u hu hpcu
      have hcc := hcrefold u hu (by rw [hpcu]; intro h3; cases h3)
      rw [hclne _ hcc]
      exact h0
  · intro u hu hpcu
    rw [hnth] at hu
    by_cases hut : u = t
    · subst hut; rw [hpct] at hpcu
      rcases hpcu with h1 | h1 <;> cases h1
    · rw [hthne u hut] at hpcu ⊢
      have h0 := inv.retInv u hu hpcu
      have hcc : (c.threads u).cref ≠ c.ncalls := by
        refine hcrefold u hu ?_
        rcases hpcu with h1 | h1 <;> rw [h1] <;> intro h3 <;> cases h3
      rw [hclne _ hcc]
      exact h0
  · intro u hu hdeu
    rw [hnth] at hu
    by_cases hut : u = t
    · subst hut
      rw [(hth u).2.2.2.1, hdet] at hdeu
      cases hdeu
    · rw [hthne u hut] at hdeu ⊢
      exact inv.didExecPc u hu hdeu
  · intro u hu hdeu
    rw [hnth] at hu
    by_cases hut : u = t
    · subst hut
      rw [(hth u).2.2.2.1, hdet] at hdeu
      cases hdeu
    · rw [hthne u hut] at hdeu ⊢
      have h0 := inv.didExecFields u hu hdeu
      have hpcu := inv.didExecPc u hu hdeu
      have hcc : (c.threads u).cref ≠ c.ncalls := by
        refine hcrefold u hu ?_
        rcases hpcu with h1 | h1 | h1 <;> rw [h1] <;> intro h3 <;> cases h3
      rw [hclne _ hcc]
      exact h0
  · intro u hu hpcu
    rw [hnth] at hu
    by_cases hut : u = t
    · subst hut; rw [hpct] at hpcu; cases hpcu
    · rw [hthne u hut] at hpcu ⊢
      have h0 := inv.resInv u hu hpcu
      have hcc : (c.threads u).cref ≠ c.ncalls := by
        refine hcrefold u hu ?_
        rw [hpcu]
        intro h3
        cases h3
      rw [hclne _ hcc]
      exact h0
  · intro i hi u hmu2
    by_cases hic : i = c.ncalls
    · subst hic
      rw [hclnew] at hmu2
      cases hmu2
    · rw [hclne _ hic] at hmu2
      rw [hnc] at hi
      have h0 := inv.muInv i (by omega) u hmu2
      have hut : u ≠ t := by
        intro he
        subst he
        rcases h0.2.2 with h1 | h1 <;> rw [hpc] at h1 <;> cases h1
      rw [hnth, hthne u hut]
      exact h0
  · intro i hi hdone
    by_cases hic : i = c.ncalls
    · subst hic
      rw [hclnew] at hdone
      cases hdone
    · rw [hclne _ hic] at hdone
      rw [hnc] at hi
      obtain ⟨u, hu, hdu, hcu⟩ := inv.doneExec i (by omega) hdone
      have hut : u ≠ t := by
        intro he
        subst he
        rw [hdet] at hdu
        cases hdu
      exact ⟨u, by rw [hnth]; exact hu, by rw [hthne u hut]; exact hdu,
        by rw [hthne u hut]; exact hcu⟩
  · have h1 : (mCreate c t).counter = c.counter := rfl
    rw [h1, hnth, inv.counterInv]
    exact (countExec_congr c.nthreads (fun j _ => (hth j).2.2.2.1)).symm

theorem stepM_InvM [DecidableEq K] [Inhabited V] {c c2 : CfgM K V E} {a : Act}
    (inv : InvM c) (h : stepM c a = some c2) : InvM c2 := by
  cases a with
  | thr t =>
    obtain ⟨ht, hcases⟩ := stepM_thr_inversion h
    rcases hcases with ⟨hpc, ci, hm, rfl⟩ | ⟨hpc, hm, rfl⟩ | ⟨hpc, hmu, rfl⟩ |
      ⟨hpc, rfl⟩ | ⟨hpc, rfl⟩ | ⟨hpc, rfl⟩
    · exact InvM_mAttach inv ht hpc hm
    · exact InvM_mCreate inv ht hpc
    · exact InvM_mLock inv ht hpc hmu
    · exact InvM_mExec inv ht hpc
    · exact InvM_mUnlock inv ht hpc
    · exact InvM_mRet inv ht hpc
  | del i =>
    obtain ⟨k, hk, rfl⟩ := stepM_del_inversion h
    exact InvM_mDel inv

theorem runM_InvM [DecidableEq K] [Inhabited V] {acts : List Act} {c c2 : CfgM K V E}
    (inv : InvM c) (h : runM c acts = some c2) : InvM c2 := by
  induction acts generalizing c with
  | nil => cases h; exact inv
  | cons a acts ih =>
    simp only [runM] at h
    cases hs : stepM c a with
    | none => rw [hs] at h; cases h
    | some c1 =>
      rw [hs] at h
      exact ih (stepM_InvM inv hs) h

theorem stepM_pres [DecidableEq K] [Inhabited V] {c c2 : CfgM K V E} {a : Act}
    (h : stepM c a = some c2) :
    c2.nthreads = c.nthreads ∧ c.ncalls ≤ c2.ncalls ∧
    ∀ u, (c2.threads u).key = (c.threads u).key ∧
      (c2.threads u).fnv = (c.threads u).fnv ∧
      (c2.threads u).fne = (c.threads u).fne := by
  cases a with
  | thr t =>
    obtain ⟨ht, hcases⟩ := stepM_thr_inversion h
    rcases hcases with ⟨hpc, ci, hm, rfl⟩ | ⟨hpc, hm, rfl⟩ | ⟨hpc, hmu, rfl⟩ |
      ⟨hpc, rfl⟩ | ⟨hpc, rfl⟩ | ⟨hpc, rfl⟩ <;>
      refine ⟨rfl, ?_, ?_⟩ <;>
      try intro u
    · exact Nat.le_refl _
    · by_cases hut : u = t
      · subst hut; simp [mAttach, updf_same]
      · simp [mAttach, updf_ne _ _ _ _ hut]
    · exact Nat.le_succ _
    · by_cases hut : u = t
      · subst hut; simp [mCreate, updf_same]
      · simp [mCreate, updf_ne _ _ _ _ hut]
    · exact Nat.le_refl _
    · by_cases hut : u = t
      · subst hut; simp [mLock, updf_same]
      · simp [mLock, updf_ne _ _ _ _ hut]
    · exact Nat.le_refl _
    · by_cases hut : u = t
      · subst hut; simp [mExec, updf_same]
      · simp [mExec, updf_ne _ _ _ _ hut]
    · exact Nat.le_refl _
    · by_cases hut : u = t
      · subst hut; simp [mUnlock, updf_same]
      · simp [mUnlock, updf_ne _ _ _ _ hut]
    · exact Nat.le_refl _
    · by_cases hut : u = t
      · subst hut; simp [mRet, updf_same]
      · simp [mRet, updf_ne _ _ _ _ hut]
  | del i =>
    obtain ⟨k, hk, rfl⟩ := stepM_del_inversion h
    exact ⟨rfl, Nat.le_refl _, fun u => ⟨rfl, rfl, rfl⟩⟩

theorem runM_pres [DecidableEq K] [Inhabited V] {acts : List Act} {c c2 : CfgM K V E}
    (h : runM c acts = some c2) :
    c2.nthreads = c.nthreads ∧ c.ncalls ≤ c2.ncalls ∧
    ∀ u, (c2.threads u).key = (c.threads u).key ∧
      (c2.threads u).fnv = (c.threads u).fnv ∧
      (c2.threads u).fne = (c.threads u).fne := by
  induction acts generalizing c with
  | nil => cases h; exact ⟨rfl, Nat.le_refl _, fun u => ⟨rfl, rfl, rfl⟩⟩
  | cons a acts ih =>
    simp only [runM] at h
    cases hs : stepM c a with
    | none => rw [hs] at h; cases h
    | some c1 =>
      rw [hs] at h
      obtain ⟨h1, h2, h3⟩ := stepM_pres hs
      obtain ⟨g1, g2, g3⟩ := ih h
      refine ⟨g1.trans h1, Nat.le_trans h2 g2, fun u => ?_⟩
      obtain ⟨a1, a2, a3⟩ := h3 u
      obtain ⟨b1, b2, b3⟩ := g3 u
      exact ⟨b1.trans a1, b2.trans a2, b3.trans a3⟩

theorem stepM_freeze [DecidableEq K] [Inhabited V] {c c2 : CfgM K V E} {a : Act}
    (inv : InvM c) (h : stepM c a = some c2) :
    ∀ i, i < c.ncalls → (c.calls i).done = true →
      (c2.calls i).value = (c.calls i).value ∧
      (c2.calls i).err = (c.calls i).err ∧
      (c2.calls i).done = true := by
  intro i hi hdone
  cases a with
  | thr t =>
    obtain ⟨ht, hcases⟩ := stepM_thr_inversion h
    rcases hcases with ⟨hpc, ci, hm, rfl⟩ | ⟨hpc, hm, rfl⟩ | ⟨hpc, hmu, rfl⟩ |
      ⟨hpc, rfl⟩ | ⟨hpc, rfl⟩ | ⟨hpc, rfl⟩
    · exact ⟨rfl, rfl, hdone⟩
    · have hic : i ≠ c.ncalls := by omega
      simp [mCreate, updf_ne _ _ _ _ hic, hdone]
    · by_cases hic : i = (c.threads t).cref
      · subst hic
        simp [mLock, updf_same, hdone]
      · simp [mLock, updf_ne _ _ _ _ hic, hdone]
    · have hic : i ≠ (c.threads t).cref := by
        intro he
        subst he
        rw [(inv.execInv t ht hpc).2] at hdone
        cases hdone
      simp [mExec, updf_ne _ _ _ _ hic, hdone]
    · by_cases hic : i = (c.threads t).cref
      · subst hic
        simp [mUnlock, updf_same, hdone]
      · simp [mUnlock, updf_ne _ _ _ _ hic, hdone]
    · exact ⟨rfl, rfl, hdone⟩
  | del j =>
    obtain ⟨k, hk, rfl⟩ := stepM_del_inversion h
    exact ⟨rfl, rfl, hdone⟩

theorem runM_freeze [DecidableEq K] [Inhabited V] {acts : List Act} {c c2 : CfgM K V E}
    (inv : InvM c) (h : runM c acts = some c2) :
    ∀ i, i < c.ncalls → (c.calls i).done = true →
      (c2.calls i).value = (c.calls i).value ∧
      (c2.calls i).err = (c.calls i).err ∧
      (c2.calls i).done = true := by
  induction acts generalizing c with
  | nil => cases h; exact fun i _ hdone => ⟨rfl, rfl, hdone⟩
  | cons a acts ih =>
    simp only [runM] at h
    cases hs : stepM c a with
    | none => rw [hs] at h; cases h
    | some c1 =>
      rw [hs] at h
      intro i hi hdone
      obtain ⟨f1, f2, f3⟩ := stepM_freeze inv hs i hi hdone
      have hi1 : i < c1.ncalls := Nat.lt_of_lt_of_le hi (stepM_pres hs).2.1
      obtain ⟨g1, g2, g3⟩ := ih (stepM_InvM inv hs) h i hi1 f3
      exact ⟨g1.trans f1, g2.trans f2, g3⟩

theorem stepM_write_once [DecidableEq K] [Inhabited V] {c c2 : CfgM K V E} {a : Act}
    (inv : InvM c) (h : stepM c a = some c2) :
    ∀ i, i < c.ncalls →
      ((c2.calls i).value ≠ (c.calls i).value ∨ (c2.calls i).err ≠ (c.calls i).err) →
      (c.calls i).done = false ∧ (c2.calls i).done = true := by
  intro i hi hch
  cases a with
  | thr t =>
    obtain ⟨ht, hcases⟩ := stepM_thr_inversion h
    rcases hcases with ⟨hpc, ci, hm, rfl⟩ | ⟨hpc, hm, rfl⟩ | ⟨hpc, hmu, rfl⟩ |
      ⟨hpc, rfl⟩ | ⟨hpc, rfl⟩ | ⟨hpc, rfl⟩
    · rcases hch with h1 | h1 <;> exact absurd rfl h1
    · have hic : i ≠ c.ncalls := by omega
      simp only [mCreate, updf_ne _ _ _ _ hic] at hch
      rcases hch with h1 | h1 <;> exact absurd rfl h1
    · by_cases hic : i = (c.threads t).cref
      · subst hic
        simp only [mLock, updf_same] at hch
        rcases hch with h1 | h1 <;> exact absurd rfl h1
      · simp only [mLock, updf_ne _ _ _ _ hic] at hch
        rcases hch with h1 | h1 <;> exact absurd rfl h1
    · by_cases hic : i = (c.threads t).cref
      · subst hic
        refine ⟨(inv.execInv t ht hpc).2, ?_⟩
        simp only [mExec, updf_same]
      · simp only [mExec, updf_ne _ _ _ _ hic] at hch
        rcases hch with h1 | h1 <;> exact absurd rfl h1
    · by_cases hic : i = (c.threads t).cref
      · subst hic
        simp only [mUnlock, updf_same] at hch
        rcases hch with h1 | h1 <;> exact absurd rfl h1
      · simp only [mUnlock, updf_ne _ _ _ _ hic] at hch
        rcases hch with h1 | h1 <;> exact absurd rfl h1
    · rcases hch with h1 | h1 <;> exact absurd rfl h1
  | del j =>
    obtain ⟨k, hk, rfl⟩ := stepM_del_inversion h
    rcases hch with h1 | h1 <;> exact absurd rfl h1

/-- Program counters at or past the release of the call mutex: a thread whose
program counter is in this set can never run a producer any more. -/
def afterPC (p : PCm) : Prop :=
  p = PCm.unlock ∨ p = PCm.ret ∨ p = PCm.halted

theorem stepM_after [DecidableEq K] [Inhabited V] {c c2 : CfgM K V E} {a : Act} {t : Nat}
    (h : stepM c a = some c2) (hp : afterPC (c.threads t).pc) :
    afterPC (c2.threads t).pc ∧
    (c2.threads t).didExec = (c.threads t).didExec ∧
    (c2.threads t).cref = (c.threads t).cref := by
  cases a with
  | thr u =>
    obtain ⟨hu, hcases⟩ := stepM_thr_inversion h
    by_cases hut : u = t
    · subst hut
      rcases hcases with ⟨hpc, ci, hm, rfl⟩ | ⟨hpc, hm, rfl⟩ | ⟨hpc, hmu, rfl⟩ |
        ⟨hpc, rfl⟩ | ⟨hpc, rfl⟩ | ⟨hpc, rfl⟩
      · rcases hp with h1 | h1 | h1 <;> rw [hpc] at h1 <;> cases h1
      · rcases hp with h1 | h1 | h1 <;> rw [hpc] at h1 <;> cases h1
      · rcases hp with h1 | h1 | h1 <;> rw [hpc] at h1 <;> cases h1
      · rcases hp with h1 | h1 | h1 <;> rw [hpc] at h1 <;> cases h1
      · refine ⟨Or.inr (Or.inl ?_), ?_, ?_⟩ <;> simp [mUnlock, updf_same]
      · refine ⟨Or.inr (Or.inr ?_), ?_, ?_⟩ <;> simp [mRet, updf_same]
    · have hne : u ≠ t := hut
      rcases hcases with ⟨hpc, ci, hm, rfl⟩ | ⟨hpc, hm, rfl⟩ | ⟨hpc, hmu, rfl⟩ |
        ⟨hpc, rfl⟩ | ⟨hpc, rfl⟩ | ⟨hpc, rfl⟩
      · refine ⟨?_, ?_, ?_⟩ <;> (simp [mAttach, updf_ne _ _ _ _ (Ne.symm hne)]; try exact hp)
      · refine ⟨?_, ?_, ?_⟩ <;> (simp [mCreate, updf_ne _ _ _ _ (Ne.symm hne)]; try exact hp)
      · refine ⟨?_, ?_, ?_⟩ <;> (simp [mLock, updf_ne _ _ _ _ (Ne.symm hne)]; try exact hp)
      · refine ⟨?_, ?_, ?_⟩ <;> (simp [mExec, updf_ne _ _ _ _ (Ne.symm hne)]; try exact hp)
      · refine ⟨?_, ?_, ?_⟩ <;> (simp [mUnlock, updf_ne _ _ _ _ (Ne.symm hne)]; try exact hp)
      · refine ⟨?_, ?_, ?_⟩ <;> (simp [mRet, updf_ne _ _ _ _ (Ne.symm hne)]; try exact hp)
  | del j =>
    obtain ⟨k, hk, rfl⟩ := stepM_del_inversion h
    exact ⟨hp, rfl, rfl⟩

theorem runM_after [DecidableEq K] [Inhabited V] {acts : List Act} {c c2 : CfgM K V E} {t : Nat}
    (h : runM c acts = some c2) (hp : afterPC (c.threads t).pc) :
    afterPC (c2.threads t).pc ∧
    (c2.threads t).didExec = (c.threads t).didExec ∧
    (c2.threads t).cref = (c.threads t).cref := by
  induction acts generalizing c with
  | nil => cases h; exact ⟨hp, rfl, rfl⟩
  | cons a acts ih =>
    simp only [runM] at h
    cases hs : stepM c a with
    | none => rw [hs] at h; cases h
    | some c1 =>
      rw [hs] at h
      obtain ⟨f1, f2, f3⟩ := stepM_after hs hp
      obtain ⟨g1, g2, g3⟩ := ih h f1
      exact ⟨g1, g2.trans f2, g3.trans f3⟩

theorem initCfgM_InvM (K V E : Type) [DecidableEq K] [Inhabited V]
    (n : Nat) (k : K) (fns : Nat → V × Option E) :
    InvM (initCfgM K V E n k fns) := by
  refine ⟨?_, ?_, ?_, ?_, ?_, ?_, ?_, ?_, ?_, ?_, ?_⟩
  · intro u _ hne
    exact absurd rfl hne
  · intro k2 ci hk
    cases hk
  · intro u _ hpcu
    cases hpcu
  · intro u _ hpcu
    cases hpcu
  · intro u _ hpcu
    rcases hpcu with h1 | h1 <;> cases h1
  · intro u _ hdeu
    cases hdeu
  · intro u _ hdeu
    cases hdeu
  · intro u _ hpcu
    cases hpcu
  · intro i hi
    exact absurd hi (by simp [initCfgM])
  · intro i hi
    exact absurd hi (by simp [initCfgM])
  · exact (countExec_zero_of_all_false n (fun i _ => rfl)).symm

/-- Progress predicate for a caller running Do alone (every other thread has
already returned): the caller has either already executed its producer, or is
still on its way towards the execution, with the map guaranteed to miss its
key while it has not looked it up, and its freshly created call guaranteed
not done and unlocked while it has not run the producer. -/
def SoloPred (t : Nat) (c : CfgM K V E) : Prop :=
  (c.threads t).didExec = true ∨
  ((c.threads t).pc = PCm.entry ∧ c.m (c.threads t).key = none) ∨
  ((c.threads t).pc = PCm.lockCall ∧ (c.calls (c.threads t).cref).done = false ∧
    (c.calls (c.threads t).cref).mu = none) ∨
  (c.threads t).pc = PCm.exec

theorem stepM_solo [DecidableEq K] [Inhabited V] {c c2 : CfgM K V E} {a : Act} {t : Nat}
    (hinv : InvM c)
    (hothers : ∀ u, u < c.nthreads → u ≠ t → (c.threads u).pc = PCm.halted)
    (hs : stepM c a = some c2) (hp : SoloPred t c) :
    (∀ u, u < c2.nthreads → u ≠ t → (c2.threads u).pc = PCm.halted) ∧ SoloPred t c2 := by
  cases a with
  | thr u =>
    obtain ⟨hu, hcases⟩ := stepM_thr_inversion hs
    by_cases hut : u = t
    · subst hut
      rcases hcases with ⟨hpc, ci, hm, rfl⟩ | ⟨hpc, hm, rfl⟩ | ⟨hpc, hmu, rfl⟩ |
        ⟨hpc, rfl⟩ | ⟨hpc, rfl⟩ | ⟨hpc, rfl⟩
      · -- a map hit is impossible while the solo caller is at entry
        rcases hp with h1 | ⟨h1, h2⟩ | ⟨h1, h2⟩ | h1
        · rcases hinv.didExecPc u hu h1 with h3 | h3 | h3 <;>
            rw [hpc] at h3 <;> cases h3
        · rw [h2] at hm; cases hm
        · rw [hpc] at h1; cases h1
        · rw [hpc] at h1; cases h1
      · refine ⟨?_, ?_⟩
        · intro w hw hwt
          have := hothers w (by simpa [mCreate] using hw) hwt
          simpa [mCreate, updf_ne _ _ _ _ hwt] using this
        · refine Or.inr (Or.inr (Or.inl ?_))
          refine ⟨by simp [mCreate, updf_same], ?_, ?_⟩ <;>
            simp [mCreate, updf_same, newCall]
      · -- acquiring the lock: the solo phase says done is false, so the
        -- caller proceeds to the producer run
        have hdone : (c.calls (c.threads u).cref).done = false := by
          rcases hp with h1 | ⟨h1, h2⟩ | ⟨h1, h2, h3⟩ | h1
          · rcases hinv.didExecPc u hu h1 with h3 | h3 | h3 <;>
              rw [hpc] at h3 <;> cases h3
          · rw [hpc] at h1; cases h1
          · exact h2
          · rw [hpc] at h1; cases h1
        refine ⟨?_, ?_⟩
        · intro w hw hwt
          have := hothers w (by simpa [mLock] using hw) hwt
          simpa [mLock, updf_ne _ _ _ _ hwt] using this
        · refine Or.inr (Or.inr (Or.inr ?_))
          simp [mLock, updf_same, hdone]
      · refine ⟨?_, ?_⟩
        · intro w hw hwt
          have := hothers w (by simpa [mExec] using hw) hwt
          simpa [mExec, updf_ne _ _ _ _ hwt] using this
        · exact Or.inl (by simp [mExec, updf_same])
      · refine ⟨?_, ?_⟩
        · intro w hw hwt
          have := hothers w (by simpa [mUnlock] using hw) hwt
          simpa [mUnlock, updf_ne _ _ _ _ hwt] using this
        · -- at unlock the solo caller must already be the executor
          rcases hp with h1 | ⟨h1, h2⟩ | ⟨h1, h2, h3⟩ | h1
          · exact Or.inl (by simp [mUnlock, updf_same]; exact h1)
          · rw [hpc] at h1; cases h1
          · rw [hpc] at h1; cases h1
          · rw [hpc] at h1; cases h1
      · refine ⟨?_, ?_⟩
        · intro w hw hwt
          have := hothers w (by simpa [mRet] using hw) hwt
          simpa [mRet, updf_ne _ _ _ _ hwt] using this
        · rcases hp with h1 | ⟨h1, h2⟩ | ⟨h1, h2, h3⟩ | h1
          · exact Or.inl (by simp [mRet, updf_same]; exact h1)
          · rw [hpc] at h1; cases h1
          · rw [hpc] at h1; cases h1
          · rw [hpc] at h1; cases h1
    · -- no other thread can move: they have all returned
      have hhalt := hothers u hu (by exact hut)
      exfalso
      rcases hcases with ⟨hpc, ci, hm, _⟩ | ⟨hpc, hm, _⟩ | ⟨hpc, hmu, _⟩ |
        ⟨hpc, _⟩ | ⟨hpc, _⟩ | ⟨hpc, _⟩ <;> rw [hhalt] at hpc <;> cases hpc
  | del j =>
    obtain ⟨k, hk, rfl⟩ := stepM_del_inversion hs
    refine ⟨fun w hw hwt => hothers w hw hwt, ?_⟩
    rcases hp with h1 | ⟨h1, h2⟩ | ⟨h1, h2, h3⟩ | h1
    · exact Or.inl h1
    · refine Or.inr (Or.inl ⟨h1, ?_⟩)
      simp only [mDel]
      split
      · rfl
      · exact h2
    · exact Or.inr (Or.inr (Or.inl ⟨h1, h2, h3⟩))
    · exact Or.inr (Or.inr (Or.inr h1))

theorem runM_solo [DecidableEq K] [Inhabited V] {acts : List Act} {c c2 : CfgM K V E} {t : Nat}
    (hinv : InvM c)
    (hothers : ∀ u, u < c.nthreads → u ≠ t → (c.threads u).pc = PCm.halted)
    (hrun : runM c acts = some c2) (hp : SoloPred t c) : SoloPred t c2 := by
  induction acts generalizing c with
  | nil => cases hrun; exact hp
  | cons a acts ih =>
    simp only [runM] at hrun
    cases hs : stepM c a with
    | none => rw [hs] at hrun; cases hrun
    | some c1 =>
      rw [hs] at hrun
      obtain ⟨h1, h2⟩ := stepM_solo hinv hothers hs hp
      exact ih (stepM_InvM hinv hs) h1 hrun h2

theorem runM_solo_result [DecidableEq K] [Inhabited V] {acts : List Act}
    {c c2 : CfgM K V E} (t : Nat)
    (hinv : InvM c) (ht : t < c.nthreads)
    (hothers : ∀ u, u < c.nthreads → u ≠ t → (c.threads u).pc = PCm.halted)
    (hpc : (c.threads t).pc = PCm.entry)
    (hm : c.m (c.threads t).key = none)
    (hrun : runM c acts = some c2)
    (hhalt : (c2.threads t).pc = PCm.halted) :
    (c2.threads t).didExec = true ∧
    (c2.threads t).res = some ((c.threads t).fnv, (c.threads t).fne) := by
  have hp2 := runM_solo hinv hothers hrun (Or.inr (Or.inl ⟨hpc, hm⟩))
  have hde : (c2.threads t).didExec = true := by
    rcases hp2 with h1 | ⟨h1, _⟩ | ⟨h1, _, _⟩ | h1
    · exact h1
    · rw [hhalt] at h1; cases h1
    · rw [hhalt] at h1; cases h1
    · rw [hhalt] at h1; cases h1
  have hinv2 := runM_InvM hinv hrun
  obtain ⟨hn, _, hpres⟩ := runM_pres hrun
  have ht2 : t < c2.nthreads := by rw [hn]; exact ht
  have h1 := hinv2.didExecFields t ht2 hde
  have h2 := hinv2.resInv t ht2 hhalt
  refine ⟨hde, ?_⟩
  rw [h2, h1.1, h1.2.1, (hpres t).2.1, (hpres t).2.2]

/-- C1 (amended): for n concurrent Do callers on one fresh group, all with the
identical key and the identical producer returning (v, e), and all inside Do
before any producer step (so the producer gating of the scenario is satisfied
by every schedule), every complete interleaving invokes the producer at least
once and at most n times — NOT exactly once, see the counterexample — and
every caller still receives exactly the pair (v, e) fixed by the single
invocation recorded in the call record it attached to. -/
theorem C1_amended {K V E : Type} [DecidableEq K] [Inhabited V] {n : Nat} {k : K}
    {v : V} {e : Option E} {acts : List Act} {c2 : CfgM K V E}
    (hrun : runM (initCfgM K V E n k (fun _ => (v, e))) acts = some c2)
    (hn : 1 ≤ n)
    (hall : ∀ t, t < n → (c2.threads t).pc = PCm.halted) :
    1 ≤ c2.counter ∧ c2.counter ≤ n ∧
    ∀ t, t < n → (c2.threads t).res = some (v, e) := by
  have hinv2 := runM_InvM (initCfgM_InvM K V E n k _) hrun
  obtain ⟨hnth, hmono, hpres⟩ := runM_pres hrun
  have hle : c2.counter ≤ n := by
    rw [hinv2.counterInv, hnth]
    exact countExec_le _ n
  have h0halt := hall 0 hn
  have h0lt : (0 : Nat) < c2.nthreads := by rw [hnth]; exact hn
  have hdone0 := hinv2.retInv 0 h0lt (Or.inr h0halt)
  have hcref0 : (c2.threads 0).cref < c2.ncalls :=
    hinv2.crefLt 0 h0lt (by rw [h0halt]; intro h3; cases h3)
  obtain ⟨u, hu, hdu, _⟩ := hinv2.doneExec _ hcref0 hdone0
  have hge : 1 ≤ c2.counter := by
    rw [hinv2.counterInv]
    exact countExec_pos _ hu hdu
  refine ⟨hge, hle, ?_⟩
  intro t htn
  have htlt : t < c2.nthreads := by rw [hnth]; exact htn
  have hhalt := hall t htn
  have hres := hinv2.resInv t htlt hhalt
  have hcreft : (c2.threads t).cref < c2.ncalls :=
    hinv2.crefLt t htlt (by rw [hhalt]; intro h3; cases h3)
  have hdonet := hinv2.retInv t htlt (Or.inr hhalt)
  obtain ⟨w, hw, hdw, hcw⟩ := hinv2.doneExec _ hcreft hdonet
  have hfields := hinv2.didExecFields w hw hdw
  rw [hres, ← hcw, hfields.1, hfields.2.1, (hpres w).2.1, (hpres w).2.2]
  simp [initCfgM]

/-- C2 (confirmed): a caller that acquires the call mutex and finds the
completion flag already true never executes its own producer (its didExec
flag stays false for the rest of any schedule), and when it returns, it
returns exactly the value and error that were stored in the call record at
the moment of the acquisition. -/
theorem C2_completed_call_attach {K V E : Type} [DecidableEq K] [Inhabited V]
    {c c1 c2 : CfgM K V E} {t : Nat} {acts : List Act}
    (hinv : InvM c) (ht : t < c.nthreads)
    (hpc : (c.threads t).pc = PCm.lockCall)
    (hdone : (c.calls (c.threads t).cref).done = true)
    (hstep : stepM c (Act.thr t) = some c1)
    (hrun : runM c1 acts = some c2) :
    (c2.threads t).didExec = false ∧
    ((c2.threads t).pc = PCm.halted →
      (c2.threads t).res =
        some ((c.calls (c.threads t).cref).value,
              (c.calls (c.threads t).cref).err)) := by
  obtain ⟨ht2, hcases⟩ := stepM_thr_inversion hstep
  rcases hcases with ⟨hpc2, ci, _, rfl⟩ | ⟨hpc2, _, rfl⟩ | ⟨hpc2, hmu, rfl⟩ |
    ⟨hpc2, rfl⟩ | ⟨hpc2, rfl⟩ | ⟨hpc2, rfl⟩
  · rw [hpc] at hpc2; cases hpc2
  · rw [hpc] at hpc2; cases hpc2
  · have hdet : (c.threads t).didExec = false := by
      cases hh : (c.threads t).didExec
      · rfl
      · rcases hinv.didExecPc t ht hh with h1 | h1 | h1 <;> rw [hpc] at h1 <;> cases h1
    have hpct1 : ((mLock c t).threads t).pc = PCm.unlock := by
      simp [mLock, updf_same, hdone]
    have hde1 : ((mLock c t).threads t).didExec = false := by
      simp [mLock, updf_same]
      exact hdet
    have hcref1 : ((mLock c t).threads t).cref = (c.threads t).cref := by
      simp [mLock, updf_same]
    have hafter := runM_after hrun (t := t) (Or.inl hpct1)
    refine ⟨by rw [hafter.2.1, hde1], ?_⟩
    intro hhalt
    have hinv1 := InvM_mLock hinv ht hpc hmu
    have hinv2 := runM_InvM hinv1 hrun
    have ht3 : t < c2.nthreads := by
      rw [(runM_pres hrun).1]
      simpa [mLock] using ht
    have hres := hinv2.resInv t ht3 hhalt
    have hi1 : (c.threads t).cref < (mLock c t).ncalls := by
      have := hinv.crefLt t ht (by rw [hpc]; intro h3; cases h3)
      simpa [mLock] using this
    have hdone1 : ((mLock c t).calls (c.threads t).cref).done = true := by
      simp [mLock, updf_same]
      exact hdone
    have hfr := runM_freeze hinv1 hrun _ hi1 hdone1
    have hv1 : ((mLock c t).calls (c.threads t).cref).value =
        (c.calls (c.threads t).cref).value := by
      simp [mLock, updf_same]
    have he1 : ((mLock c t).calls (c.threads t).cref).err =
        (c.calls (c.threads t).cref).err := by
      simp [mLock, updf_same]
    have hcr2 : (c2.threads t).cref = (c.threads t).cref := by
      rw [hafter.2.2, hcref1]
    rw [hres, hcr2, hfr.1, hfr.2.1, hv1, he1]
  · rw [hpc] at hpc2; cases hpc2
  · rw [hpc] at hpc2; cases hpc2
  · rw [hpc] at hpc2; cases hpc2

/-- C3 (confirmed): once a call record is done, its value and err fields are
never written again by any schedule (they are frozen, together with the
flag), and any single step that changes value or err is the producer step of
the record: it finds the flag false and sets it true, so the fields are
written exactly once, by the step that completes the producer, before the
flag is observed true. -/
theorem C3_write_once {K V E : Type} [DecidableEq K] [Inhabited V]
    {c c1 c2 : CfgM K V E} {a : Act} {acts : List Act}
    (hinv : InvM c) (hstep : stepM c a = some c1) (hrun : runM c acts = some c2) :
    (∀ i, i < c.ncalls → (c.calls i).done = true →
      (c2.calls i).value = (c.calls i).value ∧
      (c2.calls i).err = (c.calls i).err ∧
      (c2.calls i).done = true) ∧
    (∀ i, i < c.ncalls →
      ((c1.calls i).value ≠ (c.calls i).value ∨ (c1.calls i).err ≠ (c.calls i).err) →
      (c.calls i).done = false ∧ (c1.calls i).done = true) :=
  ⟨runM_freeze hinv hrun, stepM_write_once hinv hstep⟩

/-- C4 (amended): when a producer invocation returns the error e (stored in
the executor thread u), every caller t attached to the same call record
receives from Do exactly that error, paired with exactly the value the
producer returned (not necessarily the zero value, see the counterexample;
it is the zero value precisely when the producer returned the zero value). -/
theorem C4_amended {K V E : Type} {c : CfgM K V E} {t u : Nat} {ev : E}
    (hinv : InvM c) (ht : t < c.nthreads) (hu : u < c.nthreads)
    (hde : (c.threads u).didExec = true)
    (hhalt : (c.threads t).pc = PCm.halted)
    (hcc : (c.threads t).cref = (c.threads u).cref)
    (herr : (c.threads u).fne = some ev) :
    (c.threads t).res = some ((c.threads u).fnv, some ev) := by
  have h1 := hinv.didExecFields u hu hde
  have h2 := hinv.resInv t ht hhalt
  rw [h2, hcc, h1.1, h1.2.1, herr]

/-- C5 (confirmed): when the call for a key has been removed from the map
(the map misses the key) and a new caller subsequently runs Do on that key
with its own producer, with no other caller active, the new caller executes
its producer (a fresh execution, didExec = true) and returns its own
pair returned by its producer, rather than any retired result. -/
theorem C5_fresh_call_after_retirement {K V E : Type} [DecidableEq K] [Inhabited V]
    {acts : List Act} {c c2 : CfgM K V E} {t : Nat}
    (hinv : InvM c) (ht : t < c.nthreads)
    (hothers : ∀ u, u < c.nthreads → u ≠ t → (c.threads u).pc = PCm.halted)
    (hpc : (c.threads t).pc = PCm.entry)
    (hm : c.m (c.threads t).key = none)
    (hrun : runM c acts = some c2)
    (hhalt : (c2.threads t).pc = PCm.halted) :
    (c2.threads t).didExec = true ∧
    (c2.threads t).res = some ((c.threads t).fnv, (c.threads t).fne) :=
  runM_solo_result t hinv ht hothers hpc hm hrun hhalt

/-! ## The singleflight group, shared-flag variant (part_008) — the S model

Same data model as the M variant (the key type is fixed to string in the
source; the model keeps it generic), but Do returns the extra boolean shared,
and the deletion goroutine is spawned only by the executing caller, inside
its critical section, before the call mutex is released (part_008 lines
60-74); an attaching caller spawns nothing (lines 76-78). -/

/-- Program counter of a caller inside Do of the shared-flag variant:
entry    = the sf.mu critical section, part_008 lines 49-56;
lockCall = acquire c.mu and test done, lines 59-60;
exec     = run fn, store the results, set done and spawn the deletion
           goroutine, lines 62-70 (executor branch);
unlockE  = release c.mu, line 72 (executor branch);
retE     = read the fields and return them with shared = false, line 74;
unlockA  = release c.mu, line 76 (attaching branch);
retA     = read the fields and return them with shared = true, line 78;
halted   = Do has returned. -/
inductive PCs
  | entry
  | lockCall
  | exec
  | unlockE
  | retE
  | unlockA
  | retA
  | halted
deriving DecidableEq

/-- One caller thread of the S model; res also records the returned shared
flag. -/
structure ThreadS (K V E : Type) where
  key : K
  fnv : V
  fne : Option E
  pc : PCs
  cref : Nat
  didExec : Bool
  res : Option (V × Option E × Bool)
deriving DecidableEq

/-- A configuration of the S model, with the same reading as CfgM. -/
structure CfgS (K V E : Type) where
  m : K → Option Nat
  ncalls : Nat
  calls : Nat → Call V E
  nthreads : Nat
  threads : Nat → ThreadS K V E
  pending : List K
  counter : Nat

/-- Transition for part_008 lines 49-56 on a map hit. -/
def sAttach (c : CfgS K V E) (t ci : Nat) : CfgS K V E :=
  { c with
    threads := updf c.threads t { c.threads t with pc := PCs.lockCall, cref := ci } }

/-- Transition for part_008 lines 49-56 on a map miss: allocate and insert a
fresh call record. -/
def sCreate [DecidableEq K] [Inhabited V] (c : CfgS K V E) (t : Nat) : CfgS K V E :=
  { c with
    m := fun k => if k = (c.threads t).key then some c.ncalls else c.m k,
    ncalls := c.ncalls + 1,
    calls := updf c.calls c.ncalls (newCall V E),
    threads := updf c.threads t
      { c.threads t with pc := PCs.lockCall, cref := c.ncalls } }

/-- Transition for part_008 lines 59-60: acquire the free call mutex and test
done; the executor branch is taken when done is false, the attaching branch
when done is true. -/
def sLock (c : CfgS K V E) (t : Nat) : CfgS K V E :=
  { c with
    calls := updf c.calls (c.threads t).cref
      { c.calls (c.threads t).cref with mu := some t },
    threads := updf c.threads t
      { c.threads t with
        pc := if (c.calls (c.threads t).cref).done then PCs.unlockA else PCs.exec } }

/-- Transition for part_008 lines 62-70: run fn, store its results, set done,
and spawn the deletion goroutine for the key — the only place the shared-flag
variant spawns it. -/
def sExec (c : CfgS K V E) (t : Nat) : CfgS K V E :=
  { c with
    calls := updf c.calls (c.threads t).cref
      { c.calls (c.threads t).cref with
        value := (c.threads t).fnv, err := (c.threads t).fne, done := true },
    threads := updf c.threads t { c.threads t with pc := PCs.unlockE, didExec := true },
    pending := c.pending ++ [(c.threads t).key],
    counter := c.counter + 1 }

/-- Transition for part_008 line 72: the executor releases the call mutex. -/
def sUnlockE (c : CfgS K V E) (t : Nat) : CfgS K V E :=
  { c with
    calls := updf c.calls (c.threads t).cref
      { c.calls (c.threads t).cref with mu := none },
    threads := updf c.threads t { c.threads t with pc := PCs.retE } }

/-- Transition for part_008 line 74: the executor returns the stored pair
with shared = false. -/
def sRetE (c : CfgS K V E) (t : Nat) : CfgS K V E :=
  { c with
    threads := updf c.threads t
      { c.threads t with
        pc := PCs.halted,
        res := some ((c.calls (c.threads t).cref).value,
                     (c.calls (c.threads t).cref).err, false) } }

/-- Transition for part_008 line 76: an attaching caller releases the call
mutex. -/
def sUnlockA (c : CfgS K V E) (t : Nat) : CfgS K V E :=
  { c with
    calls := updf c.calls (c.threads t).cref
      { c.calls (c.threads t).cref with mu := none },
    threads := updf c.threads t { c.threads t with pc := PCs.retA } }

/-- Transition for part_008 line 78: an attaching caller returns the stored
pair with shared = true. -/
def sRetA (c : CfgS K V E) (t : Nat) : CfgS K V E :=
  { c with
    threads := updf c.threads t
      { c.threads t with
        pc := PCs.halted,
        res := some ((c.calls (c.threads t).cref).value,
                     (c.calls (c.threads t).cref).err, true) } }

/-- Transition for part_008 lines 67-69: a spawned deletion goroutine deletes
its key under sf.mu. -/
def sDel [DecidableEq K] (c : CfgS K V E) (i : Nat) (k : K) : CfgS K V E :=
  { c with
    pending := c.pending.eraseIdx i,
    m := fun k2 => if k2 = k then none else c.m k2 }

/-- One atomic step of the S model (part_008 Do, lines 47-79). -/
def stepS [DecidableEq K] [Inhabited V] (c : CfgS K V E) : Act → Option (CfgS K V E)
  | Act.thr t =>
    if t < c.nthreads then
      match (c.threads t).pc with
      | PCs.entry =>
        match c.m (c.threads t).key with
        | some ci => some (sAttach c t ci)
        | none => some (sCreate c t)
      | PCs.lockCall =>
        if (c.calls (c.threads t).cref).mu = none then some (sLock c t) else none
      | PCs.exec => some (sExec c t)
      | PCs.unlockE => some (sUnlockE c t)
      | PCs.retE => some (sRetE c t)
      | PCs.unlockA => some (sUnlockA c t)
      | PCs.retA => some (sRetA c t)
      | PCs.halted => none
    else none
  | Act.del i =>
    match c.pending.get? i with
    | some k => some (sDel c i k)
    | none => none

/-- Run a schedule of the S model. -/
def runS [DecidableEq K] [Inhabited V] (c : CfgS K V E) : List Act → Option (CfgS K V E)
  | [] => some c
  | a :: acts =>
    match stepS c a with
    | some c1 => runS c1 acts
    | none => none

/-- A fresh shared-flag group (NewSingleflightGroup of part_008, lines 34-38:
empty map) with n callers inside Do on key k, thread t returning (fns t). -/
def initCfgS (K V E : Type) [Inhabited V] (n : Nat) (k : K)
    (fns : Nat → V × Option E) : CfgS K V E :=
  { m := fun _ => none,
    ncalls := 0,
    calls := fun _ => ⟨none, default, none, false⟩,
    nthreads := n,
    threads := fun t => ⟨k, (fns t).1, (fns t).2, PCs.entry, 0, false, none⟩,
    pending := [],
    counter := 0 }

theorem stepS_thr_inversion [DecidableEq K] [Inhabited V] {c c2 : CfgS K V E} {t : Nat}
    (h : stepS c (Act.thr t) = some c2) :
    t < c.nthreads ∧
    (((c.threads t).pc = PCs.entry ∧
        ∃ ci, c.m (c.threads t).key = some ci ∧ c2 = sAttach c t ci) ∨
     ((c.threads t).pc = PCs.entry ∧ c.m (c.threads t).key = none ∧ c2 = sCreate c t) ∨
     ((c.threads t).pc = PCs.lockCall ∧ (c.calls (c.threads t).cref).mu = none ∧
        c2 = sLock c t) ∨
     ((c.threads t).pc = PCs.exec ∧ c2 = sExec c t) ∨
     ((c.threads t).pc = PCs.unlockE ∧ c2 = sUnlockE c t) ∨
     ((c.threads t).pc = PCs.retE ∧ c2 = sRetE c t) ∨
     ((c.threads t).pc = PCs.unlockA ∧ c2 = sUnlockA c t) ∨
     ((c.threads t).pc = PCs.retA ∧ c2 = sRetA c t)) := by
  simp only [stepS] at h
  by_cases ht : t < c.nthreads
  · rw [if_pos ht] at h
    refine ⟨ht, ?_⟩
    cases hpc : (c.threads t).pc <;> rw [hpc] at h
    · cases hm : c.m (c.threads t).key <;> rw [hm] at h
      · exact Or.inr (Or.inl ⟨rfl, rfl, (Option.some.inj h).symm⟩)
      · exact Or.inl ⟨rfl, _, rfl, (Option.some.inj h).symm⟩
    · by_cases hmu : (c.calls (c.threads t).cref).mu = none
      · rw [if_pos hmu] at h
        exact Or.inr (Or.inr (Or.inl ⟨rfl, hmu, (Option.some.inj h).symm⟩))
      · rw [if_neg hmu] at h
        exact absurd h (by simp)
    · exact Or.inr (Or.inr (Or.inr (Or.inl ⟨rfl, (Option.some.inj h).symm⟩)))
    · exact Or.inr (Or.inr (Or.inr (Or.inr (Or.inl ⟨rfl, (Option.some.inj h).symm⟩))))
    · exact Or.inr (Or.inr (Or.inr (Or.inr (Or.inr (Or.inl ⟨rfl, (Option.some.inj h).symm⟩)))))
    · exact Or.inr (Or.inr (Or.inr (Or.inr (Or.inr (Or.inr (Or.inl ⟨rfl, (Option.some.inj h).symm⟩))))))
    · exact Or.inr (Or.inr (Or.inr (Or.inr (Or.inr (Or.inr (Or.inr ⟨rfl, (Option.some.inj h).symm⟩))))))
    · exact absurd h (by simp)
  · rw [if_neg ht] at h
    exact absurd h (by simp)

theorem stepS_del_inversion [DecidableEq K] [Inhabited V] {c c2 : CfgS K V E} {i : Nat}
    (h : stepS c (Act.del i) = some c2) :
    ∃ k, c.pending.get? i = some k ∧ c2 = sDel c i k := by
  simp only [stepS] at h
  cases hp : c.pending.get? i <;> rw [hp] at h
  · exact absurd h (by simp)
  · exact ⟨_, rfl, (Option.some.inj h).symm⟩

/-- Branch invariant of the S model: the didExec flag records which branch of
Do a caller is in (executor branch between the producer run and its return,
attaching branch otherwise), and a returned caller returned the shared flag
equal to the negation of its didExec flag: shared = false for the executor,
shared = true for an attacher. -/
structure InvS (c : CfgS K V E) : Prop where
  preExec : ∀ t, t < c.nthreads →
    ((c.threads t).pc = PCs.entry ∨ (c.threads t).pc = PCs.lockCall ∨
     (c.threads t).pc = PCs.exec ∨ (c.threads t).pc = PCs.unlockA ∨
     (c.threads t).pc = PCs.retA) → (c.threads t).didExec = false
  postExec : ∀ t, t < c.nthreads →
    ((c.threads t).pc = PCs.unlockE ∨ (c.threads t).pc = PCs.retE) →
    (c.threads t).didExec = true
  resShared : ∀ t, t < c.nthreads → (c.threads t).pc = PCs.halted →
    ∃ v e, (c.threads t).res = some (v, e, !(c.threads t).didExec)

theorem stepS_InvS [DecidableEq K] [Inhabited V] {c c2 : CfgS K V E} {a : Act}
    (inv : InvS c) (h : stepS c a = some c2) : InvS c2 := by
  cases a with
  | thr u =>
    obtain ⟨hu, hcases⟩ := stepS_thr_inversion h
    rcases hcases with ⟨hpc, ci, hm, rfl⟩ | ⟨hpc, hm, rfl⟩ | ⟨hpc, hmu, rfl⟩ |
      ⟨hpc, rfl⟩ | ⟨hpc, rfl⟩ | ⟨hpc, rfl⟩ | ⟨hpc, rfl⟩ | ⟨hpc, rfl⟩
    · refine ⟨?_, ?_, ?_⟩ <;> intro w hw hc <;> by_cases hwu : w = u
      · subst hwu
        simp only [sAttach, updf_same]
        exact inv.preExec w hw (Or.inl hpc)
      · simp only [sAttach, updf_ne _ _ _ _ hwu] at hc ⊢
        exact inv.preExec w hw hc
      · subst hwu
        simp [sAttach, updf_same] at hc
      · simp only [sAttach, updf_ne _ _ _ _ hwu] at hc ⊢
        exact inv.postExec w hw hc
      · subst hwu
        simp [sAttach, updf_same] at hc
      · simp only [sAttach, updf_ne _ _ _ _ hwu] at hc ⊢
        exact inv.resShared w hw hc
    · refine ⟨?_, ?_, ?_⟩ <;> intro w hw hc <;> by_cases hwu : w = u
      · subst hwu
        simp only [sCreate, updf_same]
        exact inv.preExec w hw (Or.inl hpc)
      · simp only [sCreate, updf_ne _ _ _ _ hwu] at hc ⊢
        exact inv.preExec w hw hc
      · subst hwu
        simp [sCreate, updf_same] at hc
      · simp only [sCreate, updf_ne _ _ _ _ hwu] at hc ⊢
        exact inv.postExec w hw hc
      · subst hwu
        simp [sCreate, updf_same] at hc
      · simp only [sCreate, updf_ne _ _ _ _ hwu] at hc ⊢
        exact inv.resShared w hw hc
    · refine ⟨?_, ?_, ?_⟩ <;> intro w hw hc <;> by_cases hwu : w = u
      · subst hwu
        simp only [sLock, updf_same]
        exact inv.preExec w hw (Or.inr (Or.inl hpc))
      · simp only [sLock, updf_ne _ _ _ _ hwu] at hc ⊢
        exact inv.preExec w hw hc
      · subst hwu
        simp only [sLock, updf_same] at hc
        by_cases hdone : (c.calls (c.threads w).cref).done <;> simp [hdone] at hc
      · simp only [sLock, updf_ne _ _ _ _ hwu] at hc ⊢
        exact inv.postExec w hw hc
      · subst hwu
        simp only [sLock, updf_same] at hc
        by_cases hdone : (c.calls (c.threads w).cref).done <;> simp [hdone] at hc
      · simp only [sLock, updf_ne _ _ _ _ hwu] at hc ⊢
        exact inv.resShared w hw hc
    · refine ⟨?_, ?_, ?_⟩ <;> intro w hw hc <;> by_cases hwu : w = u
      · subst hwu
        simp [sExec, updf_same] at hc
      · simp only [sExec, updf_ne _ _ _ _ hwu] at hc ⊢
        exact inv.preExec w hw hc
      · subst hwu
        simp [sExec, updf_same]
      · simp only [sExec, updf_ne _ _ _ _ hwu] at hc ⊢
        exact inv.postExec w hw hc
      · subst hwu
        simp [sExec, updf_same] at hc
      · simp only [sExec, updf_ne _ _ _ _ hwu] at hc ⊢
        exact inv.resShared w hw hc
    · refine ⟨?_, ?_, ?_⟩ <;> intro w hw hc <;> by_cases hwu : w = u
      · subst hwu
        simp [sUnlockE, updf_same] at hc
      · simp only [sUnlockE, updf_ne _ _ _ _ hwu] at hc ⊢
        exact inv.preExec w hw hc
      · subst hwu
        simp only [sUnlockE, updf_same]
        exact inv.postExec w hw (Or.inl hpc)
      · simp only [sUnlockE, updf_ne _ _ _ _ hwu] at hc ⊢
        exact inv.postExec w hw hc
      · subst hwu
        simp [sUnlockE, updf_same] at hc
      · simp only [sUnlockE, updf_ne _ _ _ _ hwu] at hc ⊢
        exact inv.resShared w hw hc
    · refine ⟨?_, ?_, ?_⟩ <;> intro w hw hc <;> by_cases hwu : w = u
      · subst hwu
        simp [sRetE, updf_same] at hc
      · simp only [sRetE, updf_ne _ _ _ _ hwu] at hc ⊢
        exact inv.preExec w hw hc
      · subst hwu
        simp [sRetE, updf_same] at hc
      · simp only [sRetE, updf_ne _ _ _ _ hwu] at hc ⊢
        exact inv.postExec w hw hc
      · subst hwu
        have hde := inv.postExec w hw (Or.inr hpc)
        refine ⟨(c.calls (c.threads w).cref).value, (c.calls (c.threads w).cref).err, ?_⟩
        simp [sRetE, updf_same, hde]
      · simp only [sRetE, updf_ne _ _ _ _ hwu] at hc ⊢
        exact inv.resShared w hw hc
    · refine ⟨?_, ?_, ?_⟩ <;> intro w hw hc <;> by_cases hwu : w = u
      · subst hwu
        simp only [sUnlockA, updf_same]
        exact inv.preExec w hw (Or.inr (Or.inr (Or.inr (Or.inl hpc))))
      · simp only [sUnlockA, updf_ne _ _ _ _ hwu] at hc ⊢
        exact inv.preExec w hw hc
      · subst hwu
        simp [sUnlockA, updf_same] at hc
      · simp only [sUnlockA, updf_ne _ _ _ _ hwu] at hc ⊢
        exact inv.postExec w hw hc
      · subst hwu
        simp [sUnlockA, updf_same] at hc
      · simp only [sUnlockA, updf_ne _ _ _ _ hwu] at hc ⊢
        exact inv.resShared w hw hc
    · refine ⟨?_, ?_, ?_⟩ <;> intro w hw hc <;> by_cases hwu : w = u
      · subst hwu
        simp [sRetA, updf_same] at hc
      · simp only [sRetA, updf_ne _ _ _ _ hwu] at hc ⊢
        exact inv.preExec w hw hc
      · subst hwu
        simp [sRetA, updf_same] at hc
      · simp only [sRetA, updf_ne _ _ _ _ hwu] at hc ⊢
        exact inv.postExec w hw hc
      · subst hwu
        have hde := inv.preExec w hw (Or.inr (Or.inr (Or.inr (Or.inr hpc))))
        refine ⟨(c.calls (c.threads w).cref).value, (c.calls (c.threads w).cref).err, ?_⟩
        simp [sRetA, updf_same, hde]
      · simp only [sRetA, updf_ne _ _ _ _ hwu] at hc ⊢
        exact inv.resShared w hw hc
  | del j =>
    obtain ⟨k, hk, rfl⟩ := stepS_del_inversion h
    exact ⟨fun w hw hc => inv.preExec w hw hc, fun w hw hc => inv.postExec w hw hc,
      fun w hw hc => inv.resShared w hw hc⟩

theorem runS_InvS [DecidableEq K] [Inhabited V] {acts : List Act} {c c2 : CfgS K V E}
    (inv : InvS c) (h : runS c acts = some c2) : InvS c2 := by
  induction acts generalizing c with
  | nil => cases h; exact inv
  | cons a acts ih =>
    simp only [runS] at h
    cases hs : stepS c a with
    | none => rw [hs] at h; cases h
    | some c1 =>
      rw [hs] at h
      exact ih (stepS_InvS inv hs) h

theorem runS_nthreads [DecidableEq K] [Inhabited V] {acts : List Act} {c c2 : CfgS K V E}
    (h : runS c acts = some c2) : c2.nthreads = c.nthreads := by
  induction acts generalizing c with
  | nil => cases h; rfl
  | cons a acts ih =>
    simp only [runS] at h
    cases hs : stepS c a with
    | none => rw [hs] at h; cases h
    | some c1 =>
      rw [hs] at h
      have h1 : c1.nthreads = c.nthreads := by
        cases a with
        | thr u =>
          obtain ⟨hu, hcases⟩ := stepS_thr_inversion hs
          rcases hcases with ⟨_, _, _, rfl⟩ | ⟨_, _, rfl⟩ | ⟨_, _, rfl⟩ |
            ⟨_, rfl⟩ | ⟨_, rfl⟩ | ⟨_, rfl⟩ | ⟨_, rfl⟩ | ⟨_, rfl⟩ <;> rfl
        | del j =>
          obtain ⟨k, hk, rfl⟩ := stepS_del_inversion hs
          rfl
      rw [ih h, h1]

theorem initCfgS_InvS (K V E : Type) [DecidableEq K] [Inhabited V]
    (n : Nat) (k : K) (fns : Nat → V × Option E) :
    InvS (initCfgS K V E n k fns) := by
  refine ⟨?_, ?_, ?_⟩
  · intro u _ _
    rfl
  · intro u _ hc
    rcases hc with h1 | h1 <;> cases h1
  · intro u _ hc
    cases hc

/-- Program counters of the attaching branch tail of the shared-flag Do: a
caller there never becomes an executor any more. -/
def attachPC (p : PCs) : Prop :=
  p = PCs.unlockA ∨ p = PCs.retA ∨ p = PCs.halted

theorem stepS_attach_tail [DecidableEq K] [Inhabited V] {c c2 : CfgS K V E} {a : Act}
    {t : Nat} (h : stepS c a = some c2) (hp : attachPC (c.threads t).pc) :
    attachPC (c2.threads t).pc ∧ (c2.threads t).didExec = (c.threads t).didExec := by
  cases a with
  | thr u =>
    obtain ⟨hu, hcases⟩ := stepS_thr_inversion h
    by_cases hut : u = t
    · subst hut
      rcases hcases with ⟨hpc, ci, hm, rfl⟩ | ⟨hpc, hm, rfl⟩ | ⟨hpc, hmu, rfl⟩ |
        ⟨hpc, rfl⟩ | ⟨hpc, rfl⟩ | ⟨hpc, rfl⟩ | ⟨hpc, rfl⟩ | ⟨hpc, rfl⟩
      · rcases hp with h1 | h1 | h1 <;> rw [hpc] at h1 <;> cases h1
      · rcases hp with h1 | h1 | h1 <;> rw [hpc] at h1 <;> cases h1
      · rcases hp with h1 | h1 | h1 <;> rw [hpc] at h1 <;> cases h1
      · rcases hp with h1 | h1 | h1 <;> rw [hpc] at h1 <;> cases h1
      · rcases hp with h1 | h1 | h1 <;> rw [hpc] at h1 <;> cases h1
      · rcases hp with h1 | h1 | h1 <;> rw [hpc] at h1 <;> cases h1
      · refine ⟨Or.inr (Or.inl ?_), ?_⟩ <;> simp [sUnlockA, updf_same]
      · refine ⟨Or.inr (Or.inr ?_), ?_⟩ <;> simp [sRetA, updf_same]
    · have hne : u ≠ t := hut
      rcases hcases with ⟨hpc, ci, hm, rfl⟩ | ⟨hpc, hm, rfl⟩ | ⟨hpc, hmu, rfl⟩ |
        ⟨hpc, rfl⟩ | ⟨hpc, rfl⟩ | ⟨hpc, rfl⟩ | ⟨hpc, rfl⟩ | ⟨hpc, rfl⟩
      · refine ⟨?_, ?_⟩ <;> (simp [sAttach, updf_ne _ _ _ _ (Ne.symm hne)]; try exact hp)
      · refine ⟨?_, ?_⟩ <;> (simp [sCreate, updf_ne _ _ _ _ (Ne.symm hne)]; try exact hp)
      · refine ⟨?_, ?_⟩ <;> (simp [sLock, updf_ne _ _ _ _ (Ne.symm hne)]; try exact hp)
      · refine ⟨?_, ?_⟩ <;> (simp [sExec, updf_ne _ _ _ _ (Ne.symm hne)]; try exact hp)
      · refine ⟨?_, ?_⟩ <;> (simp [sUnlockE, updf_ne _ _ _ _ (Ne.symm hne)]; try exact hp)
      · refine ⟨?_, ?_⟩ <;> (simp [sRetE, updf_ne _ _ _ _ (Ne.symm hne)]; try exact hp)
      · refine ⟨?_, ?_⟩ <;> (simp [sUnlockA, updf_ne _ _ _ _ (Ne.symm hne)]; try exact hp)
      · refine ⟨?_, ?_⟩ <;> (simp [sRetA, updf_ne _ _ _ _ (Ne.symm hne)]; try exact hp)
  | del j =>
    obtain ⟨k, hk, rfl⟩ := stepS_del_inversion h
    exact ⟨hp, rfl⟩

theorem runS_attach_tail [DecidableEq K] [Inhabited V] {acts : List Act}
    {c c2 : CfgS K V E} {t : Nat}
    (h : runS c acts = some c2) (hp : attachPC (c.threads t).pc) :
    attachPC (c2.threads t).pc ∧ (c2.threads t).didExec = (c.threads t).didExec := by
  induction acts generalizing c with
  | nil => cases h; exact ⟨hp, rfl⟩
  | cons a acts ih =>
    simp only [runS] at h
    cases hs : stepS c a with
    | none => rw [hs] at h; cases h
    | some c1 =>
      rw [hs] at h
      obtain ⟨f1, f2⟩ := stepS_attach_tail hs hp
      obtain ⟨g1, g2⟩ := ih h f1
      exact ⟨g1, g2.trans f2⟩

/-- C6 (amended): in the shared-flag variant a thread step enqueues a removal
of the key exactly when it is the step completing a producer invocation (the
executing caller schedules it at the moment fn finishes; attaching callers
schedule nothing), so removal is scheduled exactly once per producer
invocation, after it finishes; in the minimal variant, by contrast, a thread
step enqueues a removal exactly at the unlock step that every Do invocation
— executor or attacher — performs once, so a single producer invocation can
have several removals scheduled (see the counterexample). -/
theorem C6_amended {K V E : Type} [DecidableEq K] [Inhabited V]
    {cS cS2 : CfgS K V E} {cM cM2 : CfgM K V E} {t u : Nat}
    (hS : stepS cS (Act.thr t) = some cS2)
    (hM : stepM cM (Act.thr u) = some cM2) :
    ((cS2.pending = cS.pending ∧ cS2.counter = cS.counter) ∨
     (cS2.pending = cS.pending ++ [(cS.threads t).key] ∧
      cS2.counter = cS.counter + 1 ∧ (cS.threads t).pc = PCs.exec ∧
      (cS2.threads t).didExec = true)) ∧
    (cM2.pending = cM.pending ∨
     (cM2.pending = cM.pending ++ [(cM.threads u).key] ∧
      (cM.threads u).pc = PCm.unlock)) := by
  constructor
  · obtain ⟨ht, hcases⟩ := stepS_thr_inversion hS
    rcases hcases with ⟨hpc, ci, hm, rfl⟩ | ⟨hpc, hm, rfl⟩ | ⟨hpc, hmu, rfl⟩ |
      ⟨hpc, rfl⟩ | ⟨hpc, rfl⟩ | ⟨hpc, rfl⟩ | ⟨hpc, rfl⟩ | ⟨hpc, rfl⟩
    · exact Or.inl ⟨rfl, rfl⟩
    · exact Or.inl ⟨rfl, rfl⟩
    · exact Or.inl ⟨rfl, rfl⟩
    · refine Or.inr ⟨rfl, rfl, hpc, ?_⟩
      simp [sExec, updf_same]
    · exact Or.inl ⟨rfl, rfl⟩
    · exact Or.inl ⟨rfl, rfl⟩
    · exact Or.inl ⟨rfl, rfl⟩
    · exact Or.inl ⟨rfl, rfl⟩
  · obtain ⟨hu2, hcases⟩ := stepM_thr_inversion hM
    rcases hcases with ⟨hpc, ci, hm, rfl⟩ | ⟨hpc, hm, rfl⟩ | ⟨hpc, hmu, rfl⟩ |
      ⟨hpc, rfl⟩ | ⟨hpc, rfl⟩ | ⟨hpc, rfl⟩
    · exact Or.inl rfl
    · exact Or.inl rfl
    · exact Or.inl rfl
    · exact Or.inl rfl
    · exact Or.inr ⟨rfl, hpc⟩
    · exact Or.inl rfl

/-- C7 (confirmed): in the shared-flag variant, a returned caller returned
shared = false exactly when it was itself the executor of the producer
(didExec true), and a caller that acquired the call mutex while the
completion flag was already true (an attaching caller) always returns
shared = true. -/
theorem C7_shared_flag {K V E : Type} [DecidableEq K] [Inhabited V]
    {c c2 : CfgS K V E} (t : Nat) {acts : List Act}
    {cb cb1 cb2 : CfgS K V E} (u : Nat) {actsb : List Act}
    (hinv : InvS c) (hrun : runS c acts = some c2) (ht : t < c.nthreads)
    (hinvb : InvS cb) (hu : u < cb.nthreads)
    (hpcb : (cb.threads u).pc = PCs.lockCall)
    (hdoneb : (cb.calls (cb.threads u).cref).done = true)
    (hstepb : stepS cb (Act.thr u) = some cb1)
    (hrunb : runS cb1 actsb = some cb2) :
    (∀ v e s, (c2.threads t).pc = PCs.halted → (c2.threads t).res = some (v, e, s) →
      (s = false ↔ (c2.threads t).didExec = true)) ∧
    (∀ v e s, (cb2.threads u).pc = PCs.halted → (cb2.threads u).res = some (v, e, s) →
      s = true) := by
  constructor
  · intro v e s hh hres
    have hinv2 := runS_InvS hinv hrun
    have ht2 : t < c2.nthreads := by rw [runS_nthreads hrun]; exact ht
    obtain ⟨v2, e2, hres2⟩ := hinv2.resShared t ht2 hh
    rw [hres] at hres2
    have hs : s = !(c2.threads t).didExec :=
      congrArg (fun p => p.2.2) (Option.some.inj hres2)
    rw [hs]
    cases (c2.threads t).didExec <;> simp
  · obtain ⟨hu3, hcases⟩ := stepS_thr_inversion hstepb
    rcases hcases with ⟨hpc2, ci, _, rfl⟩ | ⟨hpc2, _, rfl⟩ | ⟨hpc2, hmu, rfl⟩ |
      ⟨hpc2, rfl⟩ | ⟨hpc2, rfl⟩ | ⟨hpc2, rfl⟩ | ⟨hpc2, rfl⟩ | ⟨hpc2, rfl⟩
    · rw [hpcb] at hpc2; cases hpc2
    · rw [hpcb] at hpc2; cases hpc2
    · intro v e s hh hres
      have hdeu : (cb.threads u).didExec = false :=
        hinvb.preExec u hu (Or.inr (Or.inl hpcb))
      have hpc1 : ((sLock cb u).threads u).pc = PCs.unlockA := by
        simp [sLock, updf_same, hdoneb]
      have hde1 : ((sLock cb u).threads u).didExec = false := by
        simp [sLock, updf_same]
        exact hdeu
      have htail := runS_attach_tail hrunb (t := u) (Or.inl hpc1)
      have hinv1 := stepS_InvS hinvb hstepb
      have hinv2b := runS_InvS hinv1 hrunb
      have hu4 : u < cb2.nthreads := by
        rw [runS_nthreads hrunb]
        exact hu
      obtain ⟨v2, e2, hres2⟩ := hinv2b.resShared u hu4 hh
      rw [hres] at hres2
      have hs : s = !(cb2.threads u).didExec :=
        congrArg (fun p => p.2.2) (Option.some.inj hres2)
      rw [hs, htail.2, hde1]
      rfl
    · rw [hpcb] at hpc2; cases hpc2
    · rw [hpcb] at hpc2; cases hpc2
    · rw [hpcb] at hpc2; cases hpc2
    · rw [hpcb] at hpc2; cases hpc2
    · rw [hpcb] at hpc2; cases hpc2

/-- C8 (confirmed): NewSingleflightGroup creates a group whose map is empty;
the first Do on a fresh group misses the map, allocates a fresh pending call
record (completion flag false, mutex free) registered under its key, and — in
the absence of other callers — executes its producer, returns the pair of
that producer, and leaves the invocation counter at exactly one. -/
theorem C8_constructor_first_do {K V E : Type} [DecidableEq K] [Inhabited V]
    {n : Nat} {k k1 : K} {fns fns1 : Nat → V × Option E} {t : Nat} {c1 : CfgM K V E}
    {acts : List Act} {c3 : CfgM K V E}
    (_ht : t < n)
    (hstep : stepM (initCfgM K V E n k fns) (Act.thr t) = some c1)
    (hrun : runM (initCfgM K V E 1 k1 fns1) acts = some c3)
    (hhalt : (c3.threads 0).pc = PCm.halted) :
    (∀ k2, (initCfgM K V E n k fns).m k2 = none) ∧
    (c1.ncalls = 1 ∧ (c1.calls 0).done = false ∧ (c1.calls 0).mu = none ∧
     c1.m k = some 0 ∧ (c1.threads t).pc = PCm.lockCall ∧ (c1.threads t).cref = 0) ∧
    ((c3.threads 0).didExec = true ∧ (c3.threads 0).res = some (fns1 0) ∧
     c3.counter = 1) := by
  refine ⟨fun k2 => rfl, ?_, ?_⟩
  · obtain ⟨ht2, hcases⟩ := stepM_thr_inversion hstep
    rcases hcases with ⟨hpc2, ci, hm, rfl⟩ | ⟨hpc2, hm, rfl⟩ | ⟨hpc2, hmu, rfl⟩ |
      ⟨hpc2, rfl⟩ | ⟨hpc2, rfl⟩ | ⟨hpc2, rfl⟩
    · cases hm
    · refine ⟨rfl, ?_, ?_, ?_, ?_, ?_⟩
      · simp [mCreate, initCfgM, updf_same, newCall]
      · simp [mCreate, initCfgM, updf_same, newCall]
      · simp [mCreate, initCfgM]
      · simp [mCreate, updf_same]
      · simp [mCreate, initCfgM, updf_same]
    · cases hpc2
    · cases hpc2
    · cases hpc2
    · cases hpc2
  · have hsolo := runM_solo_result 0 (initCfgM_InvM K V E 1 k1 fns1)
      (show (0 : Nat) < 1 from Nat.one_pos)
      (fun w hw hwt => absurd (show w = 0 by
        have hw2 : w < 1 := hw
        omega) hwt) rfl rfl hrun hhalt
    obtain ⟨hde, hres⟩ := hsolo
    refine ⟨hde, hres, ?_⟩
    have hinv3 := runM_InvM (initCfgM_InvM K V E 1 k1 fns1) hrun
    have hn3 : c3.nthreads = 1 := (runM_pres hrun).1
    rw [hinv3.counterInv, hn3]
    simp [countExec, hde]

/-- C9 (confirmed): for both expiring caches, Get returns the zero value and
false both when the key is absent and when the stored entry has expired
(expiration time strictly before the current time), and it returns the cache
unchanged: the expired entry is reported absent but not deleted by the read. -/
theorem C9_expired_get {K V : Type} [DecidableEq K] [Inhabited V]
    (cw : WriteHeavyCacheExpired K V) (cr : ReadHeavyCacheExpired K V)
    (now : Nat) (key : K)
    (hw : cw.items key = none ∨ ∃ ev, cw.items key = some ev ∧ ev.expire < now)
    (hr : cr.items key = none ∨ ∃ ev, cr.items key = some ev ∧ ev.expire < now) :
    WriteHeavyCacheExpired.Get cw now key = ((default, false), cw) ∧
    ReadHeavyCacheExpired.Get cr now key = ((default, false), cr) := by
  constructor
  · rcases hw with h1 | ⟨ev, h1, h2⟩
    · simp [WriteHeavyCacheExpired.Get, h1]
    · simp [WriteHeavyCacheExpired.Get, h1, h2]
  · rcases hr with h1 | ⟨ev, h1, h2⟩
    · simp [ReadHeavyCacheExpired.Get, h1]
    · simp [ReadHeavyCacheExpired.Get, h1, h2]

/-- C10 (confirmed): for both integer caches, Incr on a present key stores
the wrapping machine sum of the stored value and the increment (modulo
2 ^ w for width w), Incr on an absent key stores the increment itself, and in
both cases the key is present afterwards: Get finds it with found = true. -/
theorem C10_incr {K : Type} [DecidableEq K] (w : Nat) (key : K) (value vw vr : Nat)
    (cw : WriteHeavyCacheInteger K) (cr : ReadHeavyCacheInteger K)
    (cwa : WriteHeavyCacheInteger K) (cra : ReadHeavyCacheInteger K)
    (hw : cw.items key = some vw) (hr : cr.items key = some vr)
    (hwa : cwa.items key = none) (hra : cra.items key = none) :
    WriteHeavyCacheInteger.Get (WriteHeavyCacheInteger.Incr w cw key value) key
      = ((vw + value) % 2 ^ w, true) ∧
    ReadHeavyCacheInteger.Get (ReadHeavyCacheInteger.Incr w cr key value) key
      = ((vr + value) % 2 ^ w, true) ∧
    WriteHeavyCacheInteger.Get (WriteHeavyCacheInteger.Incr w cwa key value) key
      = (value, true) ∧
    ReadHeavyCacheInteger.Get (ReadHeavyCacheInteger.Incr w cra key value) key
      = (value, true) := by
  refine ⟨?_, ?_, ?_, ?_⟩
  · simp [WriteHeavyCacheInteger.Incr, WriteHeavyCacheInteger.Get, hw]
  · simp [ReadHeavyCacheInteger.Incr, ReadHeavyCacheInteger.Get, hr]
  · simp [WriteHeavyCacheInteger.Incr, WriteHeavyCacheInteger.Get, hwa]
  · simp [ReadHeavyCacheInteger.Incr, ReadHeavyCacheInteger.Get, hra]

/-! ## Witness configurations and witness theorems

Concrete runs of the models at concrete inputs, discharging the hypotheses of
every theorem above that has any. -/

/-- Two-caller complete attach run used by the C1 witness. -/
def c1wcfg : CfgM Nat Nat Nat :=
  (runM (initCfgM Nat Nat Nat 2 0 (fun _ => (5, none)))
    [Act.thr 0, Act.thr 0, Act.thr 0, Act.thr 0, Act.thr 0,
     Act.thr 1, Act.thr 1, Act.thr 1, Act.thr 1]).getD
    (initCfgM Nat Nat Nat 2 0 (fun _ => (5, none)))

theorem C1_witness :
    1 ≤ c1wcfg.counter ∧ c1wcfg.counter ≤ 2 ∧
    (c1wcfg.threads 0).res = some (5, none) ∧
    (c1wcfg.threads 1).res = some (5, none) := by
  have h := C1_amended
    (show runM (initCfgM Nat Nat Nat 2 0 (fun _ => (5, none)))
      [Act.thr 0, Act.thr 0, Act.thr 0, Act.thr 0, Act.thr 0,
       Act.thr 1, Act.thr 1, Act.thr 1, Act.thr 1] = some c1wcfg from rfl)
    (by omega) (by decide)
  exact ⟨h.1, h.2.1, h.2.2 0 (by omega), h.2.2 1 (by omega)⟩

/-- Base configuration for the C2, C3 and C4 witnesses: caller 0 has run Do to
completion on key 7 with a producer returning (5, error 3); caller 1 has
looked the key up and is about to acquire the completed call. -/
def c2wbase : CfgM Nat Nat Nat :=
  (runM (initCfgM Nat Nat Nat 2 7 (fun _ => (5, some 3)))
    [Act.thr 0, Act.thr 0, Act.thr 0, Act.thr 0, Act.thr 0, Act.thr 1]).getD
    (initCfgM Nat Nat Nat 2 7 (fun _ => (5, some 3)))

theorem c2wbase_inv : InvM c2wbase :=
  runM_InvM (initCfgM_InvM Nat Nat Nat 2 7 (fun _ => (5, some 3)))
    (show runM (initCfgM Nat Nat Nat 2 7 (fun _ => (5, some 3)))
      [Act.thr 0, Act.thr 0, Act.thr 0, Act.thr 0, Act.thr 0, Act.thr 1]
      = some c2wbase from rfl)

/-- Configuration after caller 1 acquires the completed call of c2wbase. -/
def c2wmid : CfgM Nat Nat Nat := (stepM c2wbase (Act.thr 1)).getD c2wbase

/-- Configuration after caller 1 finishes Do from c2wmid. -/
def c2wfin : CfgM Nat Nat Nat := (runM c2wmid [Act.thr 1, Act.thr 1]).getD c2wmid

theorem C2_witness :
    (c2wfin.threads 1).didExec = false ∧
    ((c2wfin.threads 1).pc = PCm.halted →
      (c2wfin.threads 1).res =
        some ((c2wbase.calls ((c2wbase.threads 1).cref)).value,
              (c2wbase.calls ((c2wbase.threads 1).cref)).err)) :=
  C2_completed_call_attach c2wbase_inv (by decide) (by decide) (by decide)
    (show stepM c2wbase (Act.thr 1) = some c2wmid from rfl)
    (show runM c2wmid [Act.thr 1, Act.thr 1] = some c2wfin from rfl)

/-- Configuration after one more full step list from c2wbase, used by the C3
witness. -/
def c3wfin : CfgM Nat Nat Nat := (runM c2wbase [Act.thr 1, Act.thr 1]).getD c2wbase

theorem C3_witness :
    (c3wfin.calls 0).value = (c2wbase.calls 0).value ∧
    (c3wfin.calls 0).err = (c2wbase.calls 0).err ∧
    (c3wfin.calls 0).done = true :=
  (C3_write_once c2wbase_inv
    (show stepM c2wbase (Act.thr 1) = some c2wmid from rfl)
    (show runM c2wbase [Act.thr 1, Act.thr 1] = some c3wfin from rfl)).1
    0 (by decide) (by decide)

/-- Complete two-caller run on key 7 with an erring producer, used by the C4
witness: caller 0 executes, caller 1 attaches, both return. -/
def c4wcfg : CfgM Nat Nat Nat :=
  (runM (initCfgM Nat Nat Nat 2 7 (fun _ => (9, some 3)))
    [Act.thr 0, Act.thr 0, Act.thr 0, Act.thr 0, Act.thr 0,
     Act.thr 1, Act.thr 1, Act.thr 1, Act.thr 1]).getD
    (initCfgM Nat Nat Nat 2 7 (fun _ => (9, some 3)))

theorem C4_witness :
    (c4wcfg.threads 1).res = some ((c4wcfg.threads 0).fnv, some 3) :=
  C4_amended
    (runM_InvM (initCfgM_InvM Nat Nat Nat 2 7 (fun _ => (9, some 3)))
      (show runM (initCfgM Nat Nat Nat 2 7 (fun _ => (9, some 3)))
        [Act.thr 0, Act.thr 0, Act.thr 0, Act.thr 0, Act.thr 0,
         Act.thr 1, Act.thr 1, Act.thr 1, Act.thr 1] = some c4wcfg from rfl))
    (by decide) (by decide) (by decide) (by decide) (by decide) (by decide)

/-- Producers of the C5 witness: caller 0 returns (5, nil), caller 1 returns
(7, nil). -/
def c5wfns : Nat → Nat × Option Nat := fun t => if t = 0 then (5, none) else (7, none)

/-- Configuration of the C5 witness after caller 0 ran Do(0, f1) to
completion and its deletion goroutine retired the key, while caller 1 is
still at the entry of Do(0, f2). -/
def c5wbase : CfgM Nat Nat Nat :=
  (runM (initCfgM Nat Nat Nat 2 0 c5wfns)
    [Act.thr 0, Act.thr 0, Act.thr 0, Act.thr 0, Act.thr 0, Act.del 0]).getD
    (initCfgM Nat Nat Nat 2 0 c5wfns)

/-- Configuration of the C5 witness after caller 1 then ran Do(0, f2) to
completion alone. -/
def c5wfin : CfgM Nat Nat Nat :=
  (runM c5wbase [Act.thr 1, Act.thr 1, Act.thr 1, Act.thr 1, Act.thr 1]).getD c5wbase

theorem C5_witness :
    (c5wfin.threads 1).didExec = true ∧
    (c5wfin.threads 1).res = some ((c5wbase.threads 1).fnv, (c5wbase.threads 1).fne) :=
  C5_fresh_call_after_retirement
    (runM_InvM (initCfgM_InvM Nat Nat Nat 2 0 c5wfns)
      (show runM (initCfgM Nat Nat Nat 2 0 c5wfns)
        [Act.thr 0, Act.thr 0, Act.thr 0, Act.thr 0, Act.thr 0, Act.del 0]
        = some c5wbase from rfl))
    (by decide) (by decide) (by decide) (by decide)
    (show runM c5wbase [Act.thr 1, Act.thr 1, Act.thr 1, Act.thr 1, Act.thr 1]
      = some c5wfin from rfl)
    (by decide)

/-- S-model witness configuration with its single caller about to run the
producer. -/
def c6wS : CfgS Nat Nat Nat :=
  (runS (initCfgS Nat Nat Nat 1 0 (fun _ => (5, none))) [Act.thr 0, Act.thr 0]).getD
    (initCfgS Nat Nat Nat 1 0 (fun _ => (5, none)))

/-- S-model witness configuration after the producer step. -/
def c6wS2 : CfgS Nat Nat Nat := (stepS c6wS (Act.thr 0)).getD c6wS

/-- M-model witness configuration with its single caller about to unlock. -/
def c6wM : CfgM Nat Nat Nat :=
  (runM (initCfgM Nat Nat Nat 1 0 (fun _ => (5, none)))
    [Act.thr 0, Act.thr 0, Act.thr 0]).getD
    (initCfgM Nat Nat Nat 1 0 (fun _ => (5, none)))

/-- M-model witness configuration after the unlock step. -/
def c6wM2 : CfgM Nat Nat Nat := (stepM c6wM (Act.thr 0)).getD c6wM

theorem C6_witness :
    ((c6wS2.pending = c6wS.pending ∧ c6wS2.counter = c6wS.counter) ∨
     (c6wS2.pending = c6wS.pending ++ [(c6wS.threads 0).key] ∧
      c6wS2.counter = c6wS.counter + 1 ∧ (c6wS.threads 0).pc = PCs.exec ∧
      (c6wS2.threads 0).didExec = true)) ∧
    (c6wM2.pending = c6wM.pending ∨
     (c6wM2.pending = c6wM.pending ++ [(c6wM.threads 0).key] ∧
      (c6wM.threads 0).pc = PCm.unlock)) :=
  C6_amended (show stepS c6wS (Act.thr 0) = some c6wS2 from rfl)
    (show stepM c6wM (Act.thr 0) = some c6wM2 from rfl)

/-- Complete two-caller run of the S model used by the C7 witness: caller 0
takes the executor branch, caller 1 the attaching branch. -/
def c7wcfg : CfgS Nat Nat Nat :=
  (runS (initCfgS Nat Nat Nat 2 0 (fun _ => (5, none)))
    [Act.thr 0, Act.thr 0, Act.thr 0, Act.thr 0, Act.thr 0,
     Act.thr 1, Act.thr 1, Act.thr 1, Act.thr 1]).getD
    (initCfgS Nat Nat Nat 2 0 (fun _ => (5, none)))

/-- Prefix run of the C7 witness second scenario: caller 0 completed, caller
1 is about to acquire the completed call. -/
def c7wb : CfgS Nat Nat Nat :=
  (runS (initCfgS Nat Nat Nat 2 0 (fun _ => (5, none)))
    [Act.thr 0, Act.thr 0, Act.thr 0, Act.thr 0, Act.thr 0, Act.thr 1]).getD
    (initCfgS Nat Nat Nat 2 0 (fun _ => (5, none)))

/-- C7 witness second scenario after caller 1 acquires the completed call. -/
def c7wb1 : CfgS Nat Nat Nat := (stepS c7wb (Act.thr 1)).getD c7wb

/-- C7 witness second scenario after caller 1 finishes. -/
def c7wb2 : CfgS Nat Nat Nat := (runS c7wb1 [Act.thr 1, Act.thr 1]).getD c7wb1

theorem C7_witness :
    ((false : Bool) = false ↔ (c7wcfg.threads 0).didExec = true) ∧
    (true : Bool) = true := by
  have h := C7_shared_flag 0 1 (initCfgS_InvS Nat Nat Nat 2 0 (fun _ => (5, none)))
    (show runS (initCfgS Nat Nat Nat 2 0 (fun _ => (5, none)))
      [Act.thr 0, Act.thr 0, Act.thr 0, Act.thr 0, Act.thr 0,
       Act.thr 1, Act.thr 1, Act.thr 1, Act.thr 1] = some c7wcfg from rfl)
    (by decide)
    (runS_InvS (initCfgS_InvS Nat Nat Nat 2 0 (fun _ => (5, none)))
      (show runS (initCfgS Nat Nat Nat 2 0 (fun _ => (5, none)))
        [Act.thr 0, Act.thr 0, Act.thr 0, Act.thr 0, Act.thr 0, Act.thr 1]
        = some c7wb from rfl))
    (by decide) (by decide) (by decide)
    (show stepS c7wb (Act.thr 1) = some c7wb1 from rfl)
    (show runS c7wb1 [Act.thr 1, Act.thr 1] = some c7wb2 from rfl)
  exact ⟨h.1 5 none false (by decide) (by decide),
    h.2 5 none true (by decide) (by decide)⟩

/-- First Do of the C8 witness on a fresh one-caller group with key 4. -/
def c8wc1 : CfgM Nat Nat Nat :=
  (stepM (initCfgM Nat Nat Nat 1 4 (fun _ => (5, some 2))) (Act.thr 0)).getD
    (initCfgM Nat Nat Nat 1 4 (fun _ => (5, some 2)))

/-- Complete first Do of the C8 witness. -/
def c8wc3 : CfgM Nat Nat Nat :=
  (runM (initCfgM Nat Nat Nat 1 4 (fun _ => (5, some 2)))
    [Act.thr 0, Act.thr 0, Act.thr 0, Act.thr 0, Act.thr 0]).getD
    (initCfgM Nat Nat Nat 1 4 (fun _ => (5, some 2)))

theorem C8_witness :
    (initCfgM Nat Nat Nat 1 4 (fun _ => (5, some 2))).m 9 = none ∧
    (c8wc1.ncalls = 1 ∧ (c8wc1.calls 0).done = false ∧ (c8wc1.calls 0).mu = none ∧
     c8wc1.m 4 = some 0 ∧ (c8wc1.threads 0).pc = PCm.lockCall ∧
     (c8wc1.threads 0).cref = 0) ∧
    ((c8wc3.threads 0).didExec = true ∧ (c8wc3.threads 0).res = some (5, some 2) ∧
     c8wc3.counter = 1) := by
  have h := C8_constructor_first_do (by omega)
    (show stepM (initCfgM Nat Nat Nat 1 4 (fun _ => (5, some 2))) (Act.thr 0)
      = some c8wc1 from rfl)
    (show runM (initCfgM Nat Nat Nat 1 4 (fun _ => (5, some 2)))
      [Act.thr 0, Act.thr 0, Act.thr 0, Act.thr 0, Act.thr 0] = some c8wc3 from rfl)
    (by decide)
  exact ⟨h.1 9, h.2.1, h.2.2⟩

/-- Expiring cache of the C9 witness with no entry at all. -/
def c9ww : WriteHeavyCacheExpired Nat Nat := ⟨fun _ => none⟩

/-- Expiring cache of the C9 witness holding value 5 at key 0, expired at
time 3. -/
def c9wr : ReadHeavyCacheExpired Nat Nat :=
  ⟨fun k => if k = 0 then some ⟨5, 3⟩ else none⟩

theorem C9_witness :
    WriteHeavyCacheExpired.Get c9ww 4 0 = ((default, false), c9ww) ∧
    ReadHeavyCacheExpired.Get c9wr 4 0 = ((default, false), c9wr) :=
  C9_expired_get c9ww c9wr 4 0 (Or.inl rfl)
    (Or.inr ⟨⟨5, 3⟩, rfl, by decide⟩)

/-- Integer caches of the C10 witness: value 6 stored at key 0 in the present
caches, nothing in the absent ones. -/
def c10ww : WriteHeavyCacheInteger Nat := ⟨fun k => if k = 0 then some 6 else none⟩

/-- Read-heavy integer cache of the C10 witness with value 6 at key 0. -/
def c10wr : ReadHeavyCacheInteger Nat := ⟨fun k => if k = 0 then some 6 else none⟩

/-- Write-heavy integer cache of the C10 witness with an absent key. -/
def c10wwa : WriteHeavyCacheInteger Nat := ⟨fun _ => none⟩

/-- Read-heavy integer cache of the C10 witness with an absent key. -/
def c10wra : ReadHeavyCacheInteger Nat := ⟨fun _ => none⟩

theorem C10_witness :
    WriteHeavyCacheInteger.Get (WriteHeavyCacheInteger.Incr 3 c10ww 0 5) 0
      = ((6 + 5) % 2 ^ 3, true) ∧
    ReadHeavyCacheInteger.Get (ReadHeavyCacheInteger.Incr 3 c10wr 0 5) 0
      = ((6 + 5) % 2 ^ 3, true) ∧
    WriteHeavyCacheInteger.Get (WriteHeavyCacheInteger.Incr 3 c10wwa 0 5) 0
      = (5, true) ∧
    ReadHeavyCacheInteger.Get (ReadHeavyCacheInteger.Incr 3 c10wra 0 5) 0
      = (5, true) :=
  C10_incr 3 0 5 6 6 c10ww c10wr c10wwa c10wra rfl rfl rfl rfl
